import Mathlib

/-
Verification of the pathfinding core (src/pathfind.js) of the
dcoles/adventure-land repository.

The JavaScript source is shallowly embedded below.  JavaScript numbers are
modelled as real numbers; the search loop, which JavaScript runs without
bound, is modelled as a fuel-indexed iteration whose `none` result means the
original loop would still be running.  `Util.distance` and `Util.quantize`
live in `util.js`, which is not among the sources, and are modelled from the
specification (their doc comments say so explicitly).
-/

open scoped Classical

noncomputable section

namespace AdventureLand

/-- Constant `SMALL_STEP_RANGE` (pathfind.js line 10): start with small steps
for this much distance. -/
def SMALL_STEP_RANGE : ℝ := 64

/-- Constant `STEP` (pathfind.js line 11): size of a tile. -/
def STEP : ℝ := 16

/-- Constant `RANGE` (pathfind.js line 12): when we are "close enough" to the
target. -/
def RANGE : ℝ := 32

/-- Constant `MAX_SEGMENT` (pathfind.js line 13): maximum length of a
simplified path segment. -/
def MAX_SEGMENT : ℝ := 128

/-- Constant `OFFMAP_ESTIMATE` (pathfind.js line 14): estimate of distance
outside this map. -/
def OFFMAP_ESTIMATE : ℝ := 10000

/-- Positions are (x, y, map) triples; pathfind.js stores them as arrays
`[x, y, map]`. -/
structure Pos where
  x : ℝ
  y : ℝ
  map : String

/-- Keys of the bookkeeping tables.  `position_to_string` (pathfind.js
line 142) renders a position as the string `"x,y@map"` with both coordinates
printed via `toFixed(0)`; that rendering factors injectively through the
triple (rounded x, rounded y, map), so the key is modelled as that triple. -/
abbrev Key : Type := ℤ × ℤ × String

/-- Rounding performed by JavaScript's `Number.prototype.toFixed(0)`: the
sign is split off first and ties then round up, i.e. round to nearest with
ties away from zero. -/
def jsToFixed0 (x : ℝ) : ℤ := if x < 0 then -round (-x) else round x

/-- Model of `position_to_string` (pathfind.js line 142), with the string
codomain replaced by the isomorphic triple. -/
def position_to_key (p : Pos) : Key := (jsToFixed0 p.x, jsToFixed0 p.y, p.map)

/-- Modelled from the spec: `Util.distance` is defined in `util.js`, which is
missing from the sources; the spec describes it as the straight-line
Euclidean distance between two points (spec §3, §4.1). -/
def distance (x1 y1 x2 y2 : ℝ) : ℝ := Real.sqrt ((x1 - x2) ^ 2 + (y1 - y2) ^ 2)

/-- Distance between two positions (coordinates only, maps ignored), the way
`Util.distance` is invoked throughout pathfind.js. -/
def dist2 (a b : Pos) : ℝ := distance a.x a.y b.x b.y

/-- Modelled from the spec: `Util.quantize` is defined in `util.js`, which is
missing from the sources; the spec glossary defines it as "snap a coordinate
to the nearest multiple of a given step size" (spec §4.2, glossary). -/
def quantize (x step : ℝ) : ℝ := step * round (x / step)

/-- Model of `heuristic` (pathfind.js line 153): straight-line distance plus
a large fixed penalty when the maps differ. -/
def heuristic (here there : Pos) : ℝ :=
  dist2 here there + (if here.map ≠ there.map then OFFMAP_ESTIMATE else 0)

/-- The fields of the global `character` object that pathfind.js reads:
`real_x`, `real_y` and `map`.  The `base` field is forwarded opaquely to the
oracle and is dropped from the model. -/
structure Character where
  real_x : ℝ
  real_y : ℝ
  map : String

/-- The external collision oracle `window.can_move` (spec §6).  It receives
the character's current map and the coordinates of both endpoints
(pathfind.js lines 197-202). -/
def Oracle : Type := String → ℝ → ℝ → ℝ → ℝ → Bool

/-- Model of the internal `can_move` wrapper (pathfind.js line 191): moving
between maps is refused up front, otherwise the external oracle is consulted
with the character's current map. -/
def can_move (ch : Character) (oracle : Oracle) (here there : Pos) : Bool :=
  if here.map ≠ there.map then false
  else oracle ch.map here.x here.y there.x there.y

/-- Offsets (i, j) produced by the two nested loops of `neighbours`
(pathfind.js lines 168-172): i, j ∈ {-step, 0, step} skipping (0, 0), in
JavaScript iteration order (valid for positive step, and the code only ever
passes 8 or 16). -/
def offsets (step : ℝ) : List (ℝ × ℝ) :=
  [(-step, -step), (-step, 0), (-step, step),
   (0, -step), (0, step),
   (step, -step), (step, 0), (step, step)]

/-- Model of `neighbours` (pathfind.js line 164): quantize the current
position, offset it, and keep the candidates the oracle lets us move to. -/
def neighbours (ch : Character) (oracle : Oracle) (position : Pos) (step : ℝ) :
    List Pos :=
  let pq_x := quantize position.x step
  let pq_y := quantize position.y step
  (offsets step).filterMap fun ij =>
    let new_position : Pos := ⟨pq_x + ij.1, pq_y + ij.2, position.map⟩
    if can_move ch oracle position new_position then some new_position else none

/-- Recognised pathfinding options (pathfind.js lines 29-32).  `max_distance`
is kept as the raw optional number because the guard on line 94 tests its
JavaScript truthiness (so the value 0 behaves like absence).  The `simplify`
field is `none` when the key is absent, in which case line 38 defaults it to
true. -/
structure Options where
  max_distance : Option ℝ := none
  exact : Bool := false
  simplify : Option Bool := none

/-- Target descriptor (pathfind.js `location` argument): an (x, y) pair with
an optional map name; resolving named locations to coordinates happens
before this core is invoked (spec §6). -/
structure Location where
  x : ℝ
  y : ℝ
  map : Option String := none

/-- The map the target resolves to: `location.map || character.map`
(pathfind.js line 39).  The empty string is falsy in JavaScript, hence also
falls back to the character's map. -/
def resolveMap (location : Location) (ch : Character) : String :=
  match location.map with
  | none => ch.map
  | some m => if m = "" then ch.map else m

/-- The two failures of `pathfind`: the cross-map rejection (pathfind.js
line 41) and frontier exhaustion (line 122).  The spec calls them
`UnsupportedError` and `NoPathError`. -/
inductive PathfindError where
  | unsupported
  | noPath
deriving DecidableEq

/-- Lookup in an association list modelling a JavaScript object: the most
recent binding is at the head and wins, matching property overwrite. -/
def lookupD {α : Type} (l : List (Key × α)) (k : Key) : Option α :=
  (l.find? fun e => decide (e.1 = k)).map (·.2)

/-- Mutable state of one search invocation (pathfind.js lines 50-60): the
frontier `edge` and the two bookkeeping tables, the latter kept as write
logs (newest binding first). -/
structure SState where
  edge : List (ℝ × Pos)
  came_from : List (Key × Option Pos)
  dist_so_far : List (Key × ℝ)

/-- The distance-budget pruning condition (pathfind.js line 94):
`options.max_distance && next_dist > options.max_distance`, where the first
conjunct is JavaScript truthiness, hence fails when the option is 0. -/
def pruned (opts : Options) (next_dist : ℝ) : Prop :=
  ∃ d, opts.max_distance = some d ∧ d ≠ 0 ∧ next_dist > d

/-- The relaxation guard (pathfind.js line 99): the neighbour already has a
recorded cost that is not worse. -/
def hasBetter (ds : List (Key × ℝ)) (k : Key) (next_dist : ℝ) : Prop :=
  ∃ v, lookupD ds k = some v ∧ next_dist ≥ v

/-- One iteration of the neighbour loop (pathfind.js lines 91-107): budget
pruning, the relaxation guard, then pushing the neighbour onto the frontier
and recording its cost and predecessor. -/
def relaxOne (target : Pos) (opts : Options) (current : Pos) (dist : ℝ)
    (s : SState) (next : Pos) : SState :=
  let next_key := position_to_key next
  let next_dist := dist + dist2 current next
  if pruned opts next_dist then s
  else if hasBetter s.dist_so_far next_key next_dist then s
  else
    { edge := s.edge ++ [(next_dist + heuristic next target, next)],
      came_from := (next_key, some current) :: s.came_from,
      dist_so_far := (next_key, next_dist) :: s.dist_so_far }

/-- Neighbour expansion of the popped node (pathfind.js lines 90-110):
choose the adaptive step size, relax every neighbour in order, then sort the
frontier by priority (JavaScript's sort is stable, as is `mergeSort`). -/
def expand (ch : Character) (oracle : Oracle) (target : Pos) (opts : Options)
    (current : Pos) (dist : ℝ) (rest : List (ℝ × Pos)) (s : SState) : SState :=
  let step := if dist < SMALL_STEP_RANGE then STEP / 2 else STEP
  let s1 := (neighbours ch oracle current step).foldl
    (relaxOne target opts current dist) { s with edge := rest }
  { s1 with edge := s1.edge.mergeSort fun a b => decide (a.1 ≤ b.1) }

/-- Result of one iteration of the main A* loop. -/
inductive StepRes where
  | found (p : Pos) (s : SState)
  | exhausted
  | next (s : SState)

/-- One iteration of the main loop (pathfind.js lines 65-119): pop the
lowest-priority node, run the goal test (exact or close-enough), otherwise
expand its neighbours.  The cooperative-yield bookkeeping (lines 112-118)
never changes the search state and is omitted.  On exact success the target
itself is recorded with predecessor `current` and cost `dist` plus the final
hop (lines 74-75), with no budget check on that hop. -/
def searchStep (ch : Character) (oracle : Oracle) (target : Pos) (opts : Options)
    (s : SState) : StepRes :=
  match s.edge with
  | [] => .exhausted
  | (_, current) :: rest =>
    let key := position_to_key current
    let dist := (lookupD s.dist_so_far key).getD 0
    if opts.exact then
      if can_move ch oracle current target then
        .found target
          { edge := rest,
            came_from := (position_to_key target, some current) :: s.came_from,
            dist_so_far :=
              (position_to_key target, dist + dist2 current target) :: s.dist_so_far }
      else .next (expand ch oracle target opts current dist rest s)
    else
      if heuristic current target < RANGE then .found current { s with edge := rest }
      else .next (expand ch oracle target opts current dist rest s)

/-- The main loop as a fuel-indexed iteration; `none` means the fuel ran out
while the JavaScript loop would still be running. -/
def searchLoop (ch : Character) (oracle : Oracle) (target : Pos) (opts : Options) :
    Nat → SState → Option (Option Pos × SState)
  | 0, _ => none
  | fuel + 1, s =>
    match searchStep ch oracle target opts s with
    | .found p s' => some (some p, s')
    | .exhausted => some (none, s)
    | .next s' => searchLoop ch oracle target opts fuel s'

/-- Path reconstruction (pathfind.js lines 126-130): walk predecessor links
from the found node, prepending as we go; `none` means the walk did not
reach a node without predecessor within the given fuel (the JavaScript
do/while would still be running, possibly forever).  A missing key and a
null entry are both falsy and stop the walk. -/
def backtrack (cf : List (Key × Option Pos)) : Nat → Pos → Option (List Pos)
  | 0, _ => none
  | fuel + 1, found =>
    match lookupD cf (position_to_key found) with
    | none => some [found]
    | some none => some [found]
    | some (some p) => (backtrack cf fuel p).map (· ++ [found])

/-- The inner while loop of `simplify_path` (pathfind.js line 219), with the
iteration count made structural: starting at index j, advance while the
lookahead index is in range, the direct segment is shorter than
`MAX_SEGMENT`, and the oracle allows the direct hop; the result is the final
value of j.  The first argument bounds the number of iterations; since j
grows by 1 each round and the loop stops at `pa.size`, any bound of at least
`pa.size - j` makes this the exact JavaScript loop. -/
def scanAheadF (ch : Character) (oracle : Oracle) (pa : Array Pos) (p0 : Pos) :
    Nat → Nat → Nat
  | 0, j => j
  | fuel + 1, j =>
    if h : j < pa.size then
      if dist2 p0 pa[j] < MAX_SEGMENT ∧ can_move ch oracle p0 pa[j] = true then
        scanAheadF ch oracle pa p0 fuel (j + 1)
      else j
    else j

/-- The inner while loop with its sufficient iteration bound. -/
def scanAhead (ch : Character) (oracle : Oracle) (pa : Array Pos) (p0 : Pos)
    (j : Nat) : Nat :=
  scanAheadF ch oracle pa p0 pa.size j

/-- The outer loop of `simplify_path` (pathfind.js lines 215-223), with the
iteration count made structural: keep the point at index i, scan ahead from
i + 2, continue from the last index that passed the checks (`i = j - 1`).
The index strictly increases every round and the loop stops at `pa.size`,
so any bound of at least `pa.size - i` makes this the exact JavaScript
loop. -/
def simplifyLoopF (ch : Character) (oracle : Oracle) (pa : Array Pos) :
    Nat → Nat → List Pos
  | 0, _ => []
  | fuel + 1, i =>
    if h : i < pa.size then
      pa[i] :: simplifyLoopF ch oracle pa fuel (scanAhead ch oracle pa pa[i] (i + 2) - 1)
    else []

/-- Model of `simplify_path` (pathfind.js line 211), running the outer loop
with its sufficient iteration bound. -/
def simplify_path (ch : Character) (oracle : Oracle) (path : List Pos) : List Pos :=
  simplifyLoopF ch oracle path.toArray path.toArray.size 0

/-- The origin captured from the global character state (pathfind.js
line 44). -/
def originOf (ch : Character) : Pos := ⟨ch.real_x, ch.real_y, ch.map⟩

/-- The target position (pathfind.js line 46). -/
def targetOf (ch : Character) (location : Location) : Pos :=
  ⟨location.x, location.y, resolveMap location ch⟩

/-- Initial search state (pathfind.js lines 50-60): the frontier holds the
origin at its heuristic priority, the origin has no predecessor and cost
zero. -/
def initState (origin target : Pos) : SState :=
  { edge := [(heuristic origin target, origin)],
    came_from := [(position_to_key origin, none)],
    dist_so_far := [(position_to_key origin, 0)] }

/-- Model of `pathfind` (pathfind.js line 36).  The global game state is the
explicit `ch` argument; `fuel` bounds both the number of main-loop
iterations and the length of the reconstruction walk, and the result is
`none` when the JavaScript code would still be running (or never
terminate). -/
def pathfind (ch : Character) (oracle : Oracle) (fuel : Nat)
    (location : Location) (opts : Options) :
    Option (Except PathfindError (List Pos)) :=
  if resolveMap location ch ≠ ch.map then some (.error .unsupported)
  else
    match searchLoop ch oracle (targetOf ch location) opts fuel
        (initState (originOf ch) (targetOf ch location)) with
    | none => none
    | some (none, _) => some (.error .noPath)
    | some (some found, s) =>
      match backtrack s.came_from fuel found with
      | none => none
      | some path =>
        some (.ok (if opts.simplify.getD true then simplify_path ch oracle path
          else path))

/-- Total travelled length of a path: the sum of straight-line distances
over adjacent waypoint pairs. -/
def pathLength : List Pos → ℝ
  | [] => 0
  | [_] => 0
  | a :: b :: rest => dist2 a b + pathLength (b :: rest)

/-- History of values recorded for a key, most recent first.  The tables are
kept as write logs, so this is the complete sequence of values the
JavaScript object held for that key over time. -/
def valuesFor (k : Key) (l : List (Key × ℝ)) : List ℝ :=
  (l.filter fun e => decide (e.1 = k)).map (·.2)

/-- A state is reachable from another when the main loop can step from one
to the other. -/
def Reaches (ch : Character) (oracle : Oracle) (target : Pos) (opts : Options) :
    SState → SState → Prop :=
  Relation.ReflTransGen fun s s' => searchStep ch oracle target opts s = .next s'

/-- Positions produced by neighbour generation: both coordinates are integer
multiples of 8 (quantization is to multiples of 8 or 16, offsets are 0, ±8
or 0, ±16). -/
def Lattice8 (p : Pos) : Prop := (∃ a : ℤ, p.x = 8 * a) ∧ ∃ b : ℤ, p.y = 8 * b

/-- Positions a search starting at origin O can ever hold in its tables:
the origin itself, or a lattice position on the origin's map. -/
def GoodPos (O p : Pos) : Prop := p = O ∨ (Lattice8 p ∧ p.map = O.map)

/-- All recorded costs are at most D. -/
def dsLe (D : ℝ) (s : SState) : Prop := ∀ e ∈ s.dist_so_far, e.2 ≤ D

/-- Every waypoint the state mentions lives on the origin's map. -/
def MapInv (O : Pos) (s : SState) : Prop :=
  (∀ e ∈ s.edge, (e.2 : Pos).map = O.map) ∧
  ∀ e ∈ s.came_from, ∀ p, e.2 = some p → p.map = O.map

/-- Per-key histories of recorded costs are strictly decreasing over time
(the head of the log is the most recent write). -/
def HistDecr (ds : List (Key × ℝ)) : Prop :=
  ∀ k, List.Chain' (· < ·) (valuesFor k ds)

/-- Structural invariant of the search tables during a non-exact search:
the origin entries are intact, recorded costs are non-negative, frontier
members are good positions with a recorded cost, and every predecessor link
over-approximates the straight-line hop it was recorded for. -/
structure TInv (ch : Character) (oracle : Oracle) (O : Pos) (s : SState) : Prop where
  originCf : lookupD s.came_from (position_to_key O) = some none
  originDs : lookupD s.dist_so_far (position_to_key O) = some 0
  dsNonneg : ∀ e ∈ s.dist_so_far, 0 ≤ e.2
  edgeGood : ∀ e ∈ s.edge, GoodPos O (e.2 : Pos) ∧
    ∃ v, lookupD s.dist_so_far (position_to_key e.2) = some v
  link : ∀ k p, lookupD s.came_from k = some (some p) →
    GoodPos O p ∧ ∃ v w, lookupD s.dist_so_far k = some v ∧
      lookupD s.dist_so_far (position_to_key p) = some w ∧
      ∀ q, GoodPos O q → position_to_key q = k → w + dist2 p q ≤ v

/-- Fully permissive collision oracle, used in concrete scenarios. -/
def oracleOpen : Oracle := fun _ _ _ _ _ => true

/-- Five collinear waypoints used in the simplification scenario. -/
def pathC5 : List Pos :=
  [⟨0, 0, "main"⟩, ⟨10, 0, "main"⟩, ⟨20, 0, "main"⟩, ⟨30, 0, "main"⟩,
    ⟨40, 0, "main"⟩]

/-- The once-simplified form of `pathC5` under `oracleBlock30`. -/
def pathC5b : List Pos :=
  [⟨0, 0, "main"⟩, ⟨20, 0, "main"⟩, ⟨40, 0, "main"⟩]

/-- Oracle forbidding exactly the straight hop from (0, 0) to (30, 0) and
allowing everything else; used to exercise `simplify_path`. -/
def oracleBlock30 : Oracle := fun _ x y gx gy =>
  if x = 0 ∧ y = 0 ∧ gx = 30 ∧ gy = 0 then false else true

/-- Oracle allowing exactly the hop from (0, 0) to (8, 0) and the hop from
(8, 0) to (2/5, 0); used to drive a two-step exact-mode search. -/
def oracleCorridor : Oracle := fun _ x y gx gy =>
  if (x = 0 ∧ y = 0 ∧ gx = 8 ∧ gy = 0) ∨ (x = 8 ∧ y = 0 ∧ gx = 2 / 5 ∧ gy = 0)
  then true else false

/-- Intermediate state of the two-step exact-mode corridor scenario: after
the origin (0, 0) is expanded, the frontier holds (8, 0) alone. -/
def s1C6 : SState :=
  { edge := [(0 + dist2 ⟨0, 0, "main"⟩ ⟨8, 0, "main"⟩ +
      heuristic ⟨8, 0, "main"⟩ ⟨2 / 5, 0, "main"⟩, ⟨8, 0, "main"⟩)],
    came_from := [(position_to_key ⟨8, 0, "main"⟩, some ⟨0, 0, "main"⟩),
      (position_to_key ⟨0, 0, "main"⟩, none)],
    dist_so_far := [(position_to_key ⟨8, 0, "main"⟩,
        0 + dist2 ⟨0, 0, "main"⟩ ⟨8, 0, "main"⟩),
      (position_to_key ⟨0, 0, "main"⟩, 0)] }

/-- Final state of the two-step exact-mode corridor scenario: the success
write records the target's cost under the origin's key (the target (2/5, 0)
rounds to the same key as the origin (0, 0)). -/
def sFinalC6 : SState :=
  { edge := [],
    came_from := (position_to_key ⟨2 / 5, 0, "main"⟩,
      some ⟨8, 0, "main"⟩) :: s1C6.came_from,
    dist_so_far := (position_to_key ⟨2 / 5, 0, "main"⟩,
      0 + dist2 ⟨0, 0, "main"⟩ ⟨8, 0, "main"⟩ +
        dist2 ⟨8, 0, "main"⟩ ⟨2 / 5, 0, "main"⟩) :: s1C6.dist_so_far }

/-- Final state of the exact-mode budget-overshoot scenario: the very first
popped node (the origin) can reach the target directly, so the success write
records the target reached straight from the origin. -/
def sC1 : SState :=
  { edge := [],
    came_from := (position_to_key ⟨100, 0, "main"⟩, some ⟨0, 0, "main"⟩) ::
      (initState ⟨0, 0, "main"⟩ ⟨100, 0, "main"⟩).came_from,
    dist_so_far := (position_to_key ⟨100, 0, "main"⟩,
      (lookupD (initState ⟨0, 0, "main"⟩ ⟨100, 0, "main"⟩).dist_so_far
        (position_to_key ⟨0, 0, "main"⟩)).getD 0 +
      dist2 ⟨0, 0, "main"⟩ ⟨100, 0, "main"⟩) ::
      (initState ⟨0, 0, "main"⟩ ⟨100, 0, "main"⟩).dist_so_far }

/-! ### Basic facts about distances -/

theorem dist2_nonneg (a b : Pos) : 0 ≤ dist2 a b := Real.sqrt_nonneg _

theorem dist2_self (a : Pos) : dist2 a a = 0 := by
  simp [dist2, distance, Real.sqrt_zero]

theorem distance_horiz (x1 y x2 : ℝ) : distance x1 y x2 y = |x1 - x2| := by
  rw [distance]
  simp [Real.sqrt_sq_eq_abs]

theorem dist2_horiz (a b : Pos) (h : a.y = b.y) : dist2 a b = |a.x - b.x| := by
  rw [dist2, h, distance_horiz]

theorem distance_eq_complex (a b c d : ℝ) :
    distance a b c d = Complex.abs ((⟨a, b⟩ : ℂ) - ⟨c, d⟩) := by
  have h1 : ((⟨a, b⟩ : ℂ) - ⟨c, d⟩) = (⟨a - c, b - d⟩ : ℂ) := by
    apply Complex.ext <;> simp
  rw [h1, Complex.abs_apply, Complex.normSq_mk, distance]
  ring_nf

theorem dist2_triangle (a b c : Pos) : dist2 a c ≤ dist2 a b + dist2 b c := by
  rw [dist2, dist2, dist2, distance_eq_complex, distance_eq_complex,
    distance_eq_complex]
  exact Complex.abs.sub_le _ _ _

/-! ### Keys -/

theorem jsToFixed0_intCast (n : ℤ) : jsToFixed0 (n : ℝ) = n := by
  rw [jsToFixed0]
  split
  · rw [← Int.cast_neg, round_intCast]; ring
  · rw [round_intCast]

theorem jsToFixed0_eq (x : ℝ) (n : ℤ) (h : x = (n : ℝ)) : jsToFixed0 x = n := by
  rw [h, jsToFixed0_intCast]

theorem lattice_key_inj (p q : Pos) (hp : Lattice8 p) (hq : Lattice8 q)
    (hk : position_to_key p = position_to_key q) : p = q := by
  obtain ⟨⟨a, ha⟩, b, hb⟩ := hp
  obtain ⟨⟨c, hc⟩, d, hd⟩ := hq
  have h1 : jsToFixed0 p.x = 8 * a := jsToFixed0_eq _ _ (by rw [ha]; push_cast; ring)
  have h2 : jsToFixed0 p.y = 8 * b := jsToFixed0_eq _ _ (by rw [hb]; push_cast; ring)
  have h3 : jsToFixed0 q.x = 8 * c := jsToFixed0_eq _ _ (by rw [hc]; push_cast; ring)
  have h4 : jsToFixed0 q.y = 8 * d := jsToFixed0_eq _ _ (by rw [hd]; push_cast; ring)
  rw [position_to_key, position_to_key, h1, h2, h3, h4] at hk
  simp only [Prod.mk.injEq] at hk
  obtain ⟨hac, hbd, hm⟩ := hk
  cases p; cases q
  simp only at ha hb hc hd hm ⊢
  simp only [Pos.mk.injEq]
  refine ⟨?_, ?_, hm⟩
  · rw [ha, hc]; exact_mod_cast congrArg (fun z : ℤ => (z : ℝ)) hac
  · rw [hb, hd]; exact_mod_cast congrArg (fun z : ℤ => (z : ℝ)) hbd

/-! ### Association-list lookups and value histories -/

theorem lookupD_cons {α : Type} (k' : Key) (v : α) (l : List (Key × α)) (k : Key) :
    lookupD ((k', v) :: l) k = if k' = k then some v else lookupD l k := by
  by_cases h : k' = k
  · rw [if_pos h, lookupD, List.find?_cons_of_pos _ (by simp [h])]
    rfl
  · rw [if_neg h, lookupD, List.find?_cons_of_neg _
      (by intro hc; exact h (of_decide_eq_true hc))]
    rfl

theorem lookupD_mem {α : Type} {l : List (Key × α)} {k : Key} {v : α}
    (h : lookupD l k = some v) : (k, v) ∈ l := by
  rw [lookupD] at h
  cases hf : l.find? (fun e => decide (e.1 = k)) with
  | none => rw [hf] at h; simp at h
  | some e =>
    rw [hf] at h
    simp only [Option.map_some'] at h
    have hm := List.mem_of_find?_eq_some hf
    have hp := List.find?_some hf
    simp only [decide_eq_true_eq] at hp
    obtain ⟨e1, e2⟩ := e
    simp only at hp
    simp only [Option.some.injEq] at h
    rw [← hp, ← h]
    exact hm

theorem valuesFor_cons_eq (k : Key) (v : ℝ) (l : List (Key × ℝ)) :
    valuesFor k ((k, v) :: l) = v :: valuesFor k l := by
  simp [valuesFor, List.filter_cons]

theorem valuesFor_cons_ne (k k' : Key) (v : ℝ) (l : List (Key × ℝ)) (h : ¬ k' = k) :
    valuesFor k ((k', v) :: l) = valuesFor k l := by
  simp [valuesFor, List.filter_cons, h]

theorem valuesFor_head (k : Key) (l : List (Key × ℝ)) :
    (valuesFor k l).head? = lookupD l k := by
  induction l with
  | nil => rfl
  | cons e l ih =>
    obtain ⟨k', v⟩ := e
    by_cases h : k' = k
    · subst h
      rw [valuesFor_cons_eq, lookupD_cons, if_pos rfl]
      rfl
    · rw [valuesFor_cons_ne _ _ _ _ h, lookupD_cons, if_neg h, ih]

/-! ### Path length -/

theorem pathLength_nonneg : ∀ p : List Pos, 0 ≤ pathLength p
  | [] => le_refl 0
  | [_] => le_refl 0
  | a :: b :: rest =>
    add_nonneg (dist2_nonneg a b) (pathLength_nonneg (b :: rest))

theorem pathLength_concat :
    ∀ (p : List Pos) (x pos : Pos), p.getLast? = some x →
      pathLength (p ++ [pos]) = pathLength p + dist2 x pos
  | [], x, pos => by intro h; simp at h
  | [a], x, pos => by
    intro h
    simp only [List.getLast?_singleton, Option.some.injEq] at h
    subst h
    simp [pathLength]
  | a :: b :: rest2, x, pos => by
    intro h
    rw [List.getLast?_cons_cons] at h
    have h2 := pathLength_concat (b :: rest2) x pos h
    show pathLength (a :: (b :: rest2 ++ [pos])) =
      pathLength (a :: b :: rest2) + dist2 x pos
    have h3 : a :: (b :: rest2 ++ [pos]) = a :: b :: (rest2 ++ [pos]) := by simp
    rw [h3, pathLength, pathLength]
    have h4 : b :: (rest2 ++ [pos]) = (b :: rest2) ++ [pos] := by simp
    rw [h4, h2]
    ring

theorem dist2_head_last :
    ∀ (p : List Pos) (a b : Pos), p.head? = some a → p.getLast? = some b →
      dist2 a b ≤ pathLength p
  | [], a, b => by intro h; simp at h
  | [x], a, b => by
    intro h1 h2
    simp only [List.head?_cons, Option.some.injEq] at h1
    simp only [List.getLast?_singleton, Option.some.injEq] at h2
    subst h1; subst h2
    rw [dist2_self]
    exact pathLength_nonneg _
  | x :: y :: rest, a, b => by
    intro h1 h2
    simp only [List.head?_cons, Option.some.injEq] at h1
    subst h1
    rw [List.getLast?_cons_cons] at h2
    have ih := dist2_head_last (y :: rest) y b rfl h2
    have htri := dist2_triangle x y b
    have hpl : pathLength (x :: y :: rest) = dist2 x y + pathLength (y :: rest) := rfl
    linarith

/-! ### Path reconstruction -/

theorem backtrack_last (cf : List (Key × Option Pos)) :
    ∀ (fuel : Nat) (found : Pos) (path : List Pos),
      backtrack cf fuel found = some path →
      path.getLast? = some found ∧ path ≠ []
  | 0, found, path => by intro h; simp [backtrack] at h
  | fuel + 1, found, path => by
    intro h
    rw [backtrack] at h
    split at h
    · simp only [Option.some.injEq] at h
      subst h
      simp
    · simp only [Option.some.injEq] at h
      subst h
      simp
    · rename_i p hp
      rcases hb : backtrack cf fuel p with _ | l
      · rw [hb] at h; simp at h
      · rw [hb] at h
        simp only [Option.map_some', Option.some.injEq] at h
        subst h
        refine ⟨List.getLast?_concat _, by simp⟩

theorem backtrack_mem (cf : List (Key × Option Pos)) :
    ∀ (fuel : Nat) (found : Pos) (path : List Pos) (q : Pos),
      backtrack cf fuel found = some path → q ∈ path →
      q = found ∨ ∃ k, lookupD cf k = some (some q)
  | 0, found, path, q => by intro h; simp [backtrack] at h
  | fuel + 1, found, path, q => by
    intro h hq
    rw [backtrack] at h
    split at h
    · simp only [Option.some.injEq] at h
      subst h
      simp only [List.mem_singleton] at hq
      exact Or.inl hq
    · simp only [Option.some.injEq] at h
      subst h
      simp only [List.mem_singleton] at hq
      exact Or.inl hq
    · rename_i p hp
      rcases hb : backtrack cf fuel p with _ | l
      · rw [hb] at h; simp at h
      · rw [hb] at h
        simp only [Option.map_some', Option.some.injEq] at h
        subst h
        rcases List.mem_append.mp hq with hq | hq
        · rcases backtrack_mem cf fuel p l q hb hq with h1 | h1
          · exact Or.inr ⟨position_to_key found, h1 ▸ hp⟩
          · exact Or.inr h1
        · simp only [List.mem_singleton] at hq
          exact Or.inl hq

/-! ### The inner simplification loop -/

theorem scanAheadF_ge (ch : Character) (oracle : Oracle) (pa : Array Pos) (p0 : Pos) :
    ∀ (fuel j : Nat), j ≤ scanAheadF ch oracle pa p0 fuel j
  | 0, j => le_refl j
  | fuel + 1, j => by
    rw [scanAheadF]
    split
    · split
      · exact le_trans (Nat.le_succ j) (scanAheadF_ge ch oracle pa p0 fuel (j + 1))
      · exact le_refl j
    · exact le_refl j

theorem scanAheadF_stop (ch : Character) (oracle : Oracle) (pa : Array Pos) (p0 : Pos)
    (j : Nat) (h : ¬ j < pa.size) :
    ∀ fuel, scanAheadF ch oracle pa p0 fuel j = j
  | 0 => rfl
  | fuel + 1 => by rw [scanAheadF, dif_neg h]

theorem scanAheadF_le (ch : Character) (oracle : Oracle) (pa : Array Pos) (p0 : Pos) :
    ∀ (fuel j : Nat), j ≤ pa.size → scanAheadF ch oracle pa p0 fuel j ≤ pa.size
  | 0, j, hj => hj
  | fuel + 1, j, hj => by
    rw [scanAheadF]
    split
    · split
      · exact scanAheadF_le ch oracle pa p0 fuel (j + 1) (by omega)
      · exact hj
    · exact hj

theorem scanAheadF_congr (ch : Character) (oracle : Oracle) (pa : Array Pos) (p0 : Pos) :
    ∀ (f1 f2 j : Nat), pa.size - j ≤ f1 → pa.size - j ≤ f2 →
      scanAheadF ch oracle pa p0 f1 j = scanAheadF ch oracle pa p0 f2 j
  | 0, f2, j, h1, _ => by
    have hj : ¬ j < pa.size := by omega
    rw [scanAheadF_stop ch oracle pa p0 j hj f2]
    rfl
  | f1 + 1, f2, j, h1, h2 => by
    by_cases hj : j < pa.size
    · cases f2 with
      | zero => omega
      | succ f2 =>
        rw [scanAheadF, scanAheadF, dif_pos hj, dif_pos hj]
        split
        · exact scanAheadF_congr ch oracle pa p0 f1 f2 (j + 1) (by omega) (by omega)
        · rfl
    · rw [scanAheadF_stop ch oracle pa p0 j hj (f1 + 1),
        scanAheadF_stop ch oracle pa p0 j hj f2]

theorem scanAhead_ge (ch : Character) (oracle : Oracle) (pa : Array Pos) (p0 : Pos)
    (j : Nat) : j ≤ scanAhead ch oracle pa p0 j :=
  scanAheadF_ge ch oracle pa p0 pa.size j

theorem scanAhead_le (ch : Character) (oracle : Oracle) (pa : Array Pos) (p0 : Pos)
    (j : Nat) (hj : j ≤ pa.size) : scanAhead ch oracle pa p0 j ≤ pa.size :=
  scanAheadF_le ch oracle pa p0 pa.size j hj

theorem scanAhead_stop (ch : Character) (oracle : Oracle) (pa : Array Pos) (p0 : Pos)
    (j : Nat) (h : ¬ j < pa.size) : scanAhead ch oracle pa p0 j = j :=
  scanAheadF_stop ch oracle pa p0 j h pa.size

theorem scanAhead_step (ch : Character) (oracle : Oracle) (pa : Array Pos) (p0 : Pos)
    (j : Nat) (h : j < pa.size)
    (hc : dist2 p0 pa[j] < MAX_SEGMENT ∧ can_move ch oracle p0 pa[j] = true) :
    scanAhead ch oracle pa p0 j = scanAhead ch oracle pa p0 (j + 1) := by
  rw [scanAhead, scanAhead,
    scanAheadF_congr ch oracle pa p0 pa.size (pa.size - j) j (by omega) (by omega)]
  have h1 : pa.size - j = (pa.size - j - 1) + 1 := by omega
  rw [h1, scanAheadF, dif_pos h, if_pos hc]
  exact scanAheadF_congr ch oracle pa p0 (pa.size - j - 1) pa.size (j + 1)
    (by omega) (by omega)

theorem scanAhead_fail (ch : Character) (oracle : Oracle) (pa : Array Pos) (p0 : Pos)
    (j : Nat) (h : j < pa.size)
    (hc : ¬(dist2 p0 pa[j] < MAX_SEGMENT ∧ can_move ch oracle p0 pa[j] = true)) :
    scanAhead ch oracle pa p0 j = j := by
  rw [scanAhead,
    scanAheadF_congr ch oracle pa p0 pa.size (pa.size - j) j (by omega) (by omega)]
  have h1 : pa.size - j = (pa.size - j - 1) + 1 := by omega
  rw [h1, scanAheadF, dif_pos h, if_neg hc]

theorem scanAheadF_last (ch : Character) (oracle : Oracle) (pa : Array Pos) (p0 : Pos) :
    ∀ (fuel j r : Nat), scanAheadF ch oracle pa p0 fuel j = r → j < r →
      ∃ hh : r - 1 < pa.size,
        dist2 p0 (pa.get ⟨r - 1, hh⟩) < MAX_SEGMENT ∧
        can_move ch oracle p0 (pa.get ⟨r - 1, hh⟩) = true
  | 0, j, r, he, hlt => by rw [scanAheadF] at he; omega
  | fuel + 1, j, r, he, hlt => by
    rw [scanAheadF] at he
    by_cases hj : j < pa.size
    · rw [dif_pos hj] at he
      by_cases hc : dist2 p0 pa[j] < MAX_SEGMENT ∧ can_move ch oracle p0 pa[j] = true
      · rw [if_pos hc] at he
        by_cases hj1 : j + 1 < r
        · exact scanAheadF_last ch oracle pa p0 fuel (j + 1) r he hj1
        · have hge := scanAheadF_ge ch oracle pa p0 fuel (j + 1)
          rw [he] at hge
          have hr : r = j + 1 := by omega
          subst hr
          exact ⟨by omega, by simp only [Nat.add_sub_cancel]; exact hc.1,
            by simp only [Nat.add_sub_cancel]; exact hc.2⟩
      · rw [if_neg hc] at he; omega
    · rw [dif_neg hj] at he; omega

theorem scanAhead_last (ch : Character) (oracle : Oracle) (pa : Array Pos) (p0 : Pos)
    (j r : Nat) (he : scanAhead ch oracle pa p0 j = r) (hlt : j < r) :
    ∃ hh : r - 1 < pa.size,
      dist2 p0 (pa.get ⟨r - 1, hh⟩) < MAX_SEGMENT ∧
      can_move ch oracle p0 (pa.get ⟨r - 1, hh⟩) = true :=
  scanAheadF_last ch oracle pa p0 pa.size j r he hlt

/-! ### The outer simplification loop -/

theorem simplifyLoopF_stop (ch : Character) (oracle : Oracle) (pa : Array Pos)
    (i : Nat) (h : ¬ i < pa.size) :
    ∀ fuel, simplifyLoopF ch oracle pa fuel i = []
  | 0 => rfl
  | fuel + 1 => by rw [simplifyLoopF, dif_neg h]

theorem simplifyLoopF_congr (ch : Character) (oracle : Oracle) (pa : Array Pos) :
    ∀ (f1 f2 i : Nat), pa.size - i ≤ f1 → pa.size - i ≤ f2 →
      simplifyLoopF ch oracle pa f1 i = simplifyLoopF ch oracle pa f2 i
  | 0, f2, i, h1, _ => by
    have hi : ¬ i < pa.size := by omega
    rw [simplifyLoopF_stop ch oracle pa i hi f2]
    rfl
  | f1 + 1, f2, i, h1, h2 => by
    by_cases hi : i < pa.size
    · cases f2 with
      | zero => omega
      | succ f2 =>
        rw [simplifyLoopF, simplifyLoopF, dif_pos hi, dif_pos hi]
        have hge := scanAhead_ge ch oracle pa pa[i] (i + 2)
        congr 1
        exact simplifyLoopF_congr ch oracle pa f1 f2 _ (by omega) (by omega)
    · rw [simplifyLoopF_stop ch oracle pa i hi (f1 + 1),
        simplifyLoopF_stop ch oracle pa i hi f2]

theorem simplifyLoopF_pos (ch : Character) (oracle : Oracle) (pa : Array Pos)
    (fuel i : Nat) (h : i < pa.size) (hf : pa.size - i ≤ fuel) :
    simplifyLoopF ch oracle pa fuel i =
      pa[i] :: simplifyLoopF ch oracle pa fuel
        (scanAhead ch oracle pa pa[i] (i + 2) - 1) := by
  cases fuel with
  | zero => omega
  | succ fuel =>
    rw [simplifyLoopF, dif_pos h]
    have hge := scanAhead_ge ch oracle pa pa[i] (i + 2)
    congr 1
    exact simplifyLoopF_congr ch oracle pa fuel (fuel + 1) _ (by omega) (by omega)

theorem simplifyLoopF_last (ch : Character) (oracle : Oracle) (pa : Array Pos) :
    ∀ (fuel i : Nat), pa.size - i ≤ fuel → ∀ h : i < pa.size,
      (simplifyLoopF ch oracle pa fuel i).getLast? =
        some (pa.get ⟨pa.size - 1, by omega⟩)
  | 0, i, hf, h => by omega
  | fuel + 1, i, hf, h => by
    rw [simplifyLoopF, dif_pos h]
    have hge : i + 2 ≤ scanAhead ch oracle pa pa[i] (i + 2) :=
      scanAhead_ge ch oracle pa pa[i] (i + 2)
    by_cases h2 : scanAhead ch oracle pa pa[i] (i + 2) - 1 < pa.size
    · have ih := simplifyLoopF_last ch oracle pa fuel
        (scanAhead ch oracle pa pa[i] (i + 2) - 1) (by omega) h2
      rw [simplifyLoopF_pos ch oracle pa fuel _ h2 (by omega),
        List.getLast?_cons_cons,
        ← simplifyLoopF_pos ch oracle pa fuel _ h2 (by omega)]
      exact ih
    · rw [simplifyLoopF_stop ch oracle pa _ h2 fuel]
      have hi : i = pa.size - 1 := by
        by_cases hcase : i + 2 ≤ pa.size
        · have := scanAhead_le ch oracle pa pa[i] (i + 2) hcase
          omega
        · omega
      subst hi
      rfl

theorem simplifyLoopF_sublist (ch : Character) (oracle : Oracle) (pa : Array Pos) :
    ∀ (fuel i : Nat), pa.size - i ≤ fuel →
      (simplifyLoopF ch oracle pa fuel i).Sublist (pa.toList.drop i)
  | 0, i, hf => by
    rw [simplifyLoopF]
    exact List.nil_sublist _
  | fuel + 1, i, hf => by
    by_cases h : i < pa.size
    · rw [simplifyLoopF, dif_pos h]
      have hge : i + 2 ≤ scanAhead ch oracle pa pa[i] (i + 2) :=
        scanAhead_ge ch oracle pa pa[i] (i + 2)
      have ih := simplifyLoopF_sublist ch oracle pa fuel
        (scanAhead ch oracle pa pa[i] (i + 2) - 1) (by omega)
      have hlen : i < pa.toList.length := by rw [Array.length_toList]; exact h
      have hdrop : pa.toList.drop i = pa[i] :: pa.toList.drop (i + 1) := by
        rw [List.drop_eq_getElem_cons hlen, Array.getElem_toList]
      rw [hdrop]
      refine List.Sublist.cons₂ _ ?_
      have h2 : pa.toList.drop (scanAhead ch oracle pa pa[i] (i + 2) - 1) =
          List.drop ((scanAhead ch oracle pa pa[i] (i + 2) - 1) - (i + 1))
            (pa.toList.drop (i + 1)) := by
        rw [List.drop_drop]
        congr 1
        omega
      refine ih.trans ?_
      rw [h2]
      exact List.drop_sublist _ _
    · rw [simplifyLoopF_stop ch oracle pa i h]
      exact List.nil_sublist _

theorem simplifyLoopF_chain (ch : Character) (oracle : Oracle) (pa : Array Pos)
    (hch : ∀ (t : Nat) (h1 : t + 1 < pa.size),
      can_move ch oracle (pa.get ⟨t, by omega⟩) (pa.get ⟨t + 1, h1⟩) = true) :
    ∀ (fuel i : Nat), pa.size - i ≤ fuel →
      List.Chain' (fun a b => can_move ch oracle a b = true)
        (simplifyLoopF ch oracle pa fuel i)
  | 0, i, hf => by
    rw [simplifyLoopF]
    exact List.chain'_nil
  | fuel + 1, i, hf => by
    by_cases h : i < pa.size
    · rw [simplifyLoopF, dif_pos h, List.chain'_cons']
      have hge : i + 2 ≤ scanAhead ch oracle pa pa[i] (i + 2) :=
        scanAhead_ge ch oracle pa pa[i] (i + 2)
      constructor
      · intro y hy
        by_cases h2 : scanAhead ch oracle pa pa[i] (i + 2) - 1 < pa.size
        · rw [simplifyLoopF_pos ch oracle pa fuel _ h2 (by omega)] at hy
          simp only [List.head?_cons, Option.mem_def, Option.some.injEq] at hy
          subst hy
          by_cases h3 : i + 2 < scanAhead ch oracle pa pa[i] (i + 2)
          · obtain ⟨hh, _, hcm⟩ := scanAhead_last ch oracle pa pa[i] (i + 2)
              (scanAhead ch oracle pa pa[i] (i + 2)) rfl (by omega)
            exact hcm
          · have hr : scanAhead ch oracle pa pa[i] (i + 2) = i + 2 := by omega
            have h4 : i + 1 < pa.size := by omega
            have hcm := hch i h4
            simp only [hr]
            exact hcm
        · rw [simplifyLoopF_stop ch oracle pa _ h2 fuel] at hy
          simp at hy
      · exact simplifyLoopF_chain ch oracle pa hch fuel
          (scanAhead ch oracle pa pa[i] (i + 2) - 1) (by omega)
    · rw [simplifyLoopF_stop ch oracle pa i h]
      exact List.chain'_nil

theorem pathLength_cons_cons (a b : Pos) (rest : List Pos) :
    pathLength (a :: b :: rest) = dist2 a b + pathLength (b :: rest) := rfl

theorem pathLength_drop_le (l : List Pos) :
    ∀ (n i i' : Nat), i' - i ≤ n → i ≤ i' →
      ∀ (h1 : i < l.length) (h2 : i' < l.length),
      dist2 (l.get ⟨i, h1⟩) (l.get ⟨i', h2⟩) + pathLength (l.drop i') ≤
        pathLength (l.drop i)
  | 0, i, i', hn, hle, h1, h2 => by
    have hii : i = i' := by omega
    subst hii
    have hz : dist2 (l.get ⟨i, h1⟩) (l.get ⟨i, h2⟩) = 0 := dist2_self (l.get ⟨i, h1⟩)
    rw [hz]
    linarith [pathLength_nonneg (l.drop i)]
  | n + 1, i, i', hn, hle, h1, h2 => by
    by_cases hii : i = i'
    · subst hii
      have hz : dist2 (l.get ⟨i, h1⟩) (l.get ⟨i, h2⟩) = 0 := dist2_self (l.get ⟨i, h1⟩)
      rw [hz]
      linarith [pathLength_nonneg (l.drop i)]
    · have hlt : i < i' := by omega
      have h1' : i + 1 < l.length := by omega
      have ih := pathLength_drop_le l n (i + 1) i' (by omega) (by omega) h1' h2
      have htri := dist2_triangle (l.get ⟨i, h1⟩) (l.get ⟨i + 1, h1'⟩) (l.get ⟨i', h2⟩)
      have hsplit : pathLength (l.drop i) =
          dist2 (l.get ⟨i, h1⟩) (l.get ⟨i + 1, h1'⟩) + pathLength (l.drop (i + 1)) := by
        rw [List.drop_eq_getElem_cons h1, List.drop_eq_getElem_cons h1']
        rfl
      rw [hsplit]
      linarith

theorem simplifyLoopF_len (ch : Character) (oracle : Oracle) (pa : Array Pos) :
    ∀ (fuel i : Nat), pa.size - i ≤ fuel →
      pathLength (simplifyLoopF ch oracle pa fuel i) ≤ pathLength (pa.toList.drop i)
  | 0, i, hf => by
    rw [simplifyLoopF]
    exact pathLength_nonneg _
  | fuel + 1, i, hf => by
    by_cases h : i < pa.size
    · rw [simplifyLoopF, dif_pos h]
      have hge : i + 2 ≤ scanAhead ch oracle pa pa[i] (i + 2) :=
        scanAhead_ge ch oracle pa pa[i] (i + 2)
      by_cases h2 : scanAhead ch oracle pa pa[i] (i + 2) - 1 < pa.size
      · have ih := simplifyLoopF_len ch oracle pa fuel
          (scanAhead ch oracle pa pa[i] (i + 2) - 1) (by omega)
        have h1' : i < pa.toList.length := by
          rw [Array.length_toList]; exact h
        have h2' : scanAhead ch oracle pa pa[i] (i + 2) - 1 < pa.toList.length := by
          rw [Array.length_toList]; exact h2
        have hstep := pathLength_drop_le pa.toList
          (scanAhead ch oracle pa pa[i] (i + 2) - 1 - i) i
          (scanAhead ch oracle pa pa[i] (i + 2) - 1) (by omega) (by omega) h1' h2'
        have hget1 : pa.toList.get ⟨i, h1'⟩ = pa[i] := Array.getElem_toList h
        have hget2 : pa.toList.get ⟨scanAhead ch oracle pa pa[i] (i + 2) - 1, h2'⟩ =
            pa[scanAhead ch oracle pa pa[i] (i + 2) - 1] := Array.getElem_toList h2
        rw [hget1, hget2] at hstep
        have hL := simplifyLoopF_pos ch oracle pa fuel
          (scanAhead ch oracle pa pa[i] (i + 2) - 1) h2 (by omega)
        rw [hL, pathLength_cons_cons, ← hL]
        linarith
      · rw [simplifyLoopF_stop ch oracle pa _ h2 fuel]
        have hz : pathLength [pa[i]] = 0 := rfl
        rw [hz]
        exact pathLength_nonneg _
    · rw [simplifyLoopF_stop ch oracle pa i h]
      exact pathLength_nonneg _

/-! ### Facts about simplify_path -/

theorem toArray_size (p : List Pos) : (p.toArray).size = p.length := by
  rw [← Array.length_toList, Array.toList_toArray]

theorem simplify_path_nil (ch : Character) (oracle : Oracle) :
    simplify_path ch oracle [] = [] := rfl

theorem simplify_path_sublist (ch : Character) (oracle : Oracle) (p : List Pos) :
    (simplify_path ch oracle p).Sublist p := by
  have h := simplifyLoopF_sublist ch oracle p.toArray p.toArray.size 0 (by omega)
  rw [Array.toList_toArray, List.drop_zero] at h
  exact h

theorem simplify_path_head (ch : Character) (oracle : Oracle) (a : Pos)
    (t : List Pos) :
    (simplify_path ch oracle (a :: t)).head? = some a := by
  have hsz : 0 < ((a :: t).toArray).size := by
    rw [toArray_size]
    simp
  rw [simplify_path, simplifyLoopF_pos ch oracle _ _ 0 hsz (by omega)]
  rfl

theorem simplify_path_ne_nil (ch : Character) (oracle : Oracle) (a : Pos)
    (t : List Pos) : simplify_path ch oracle (a :: t) ≠ [] := by
  have hsz : 0 < ((a :: t).toArray).size := by
    rw [toArray_size]
    simp
  rw [simplify_path, simplifyLoopF_pos ch oracle _ _ 0 hsz (by omega)]
  simp

theorem simplify_path_last (ch : Character) (oracle : Oracle) (p : List Pos) :
    (simplify_path ch oracle p).getLast? = p.getLast? := by
  cases p with
  | nil => rw [simplify_path_nil]
  | cons a t =>
    have hs : ((a :: t).toArray).size = (a :: t).length := toArray_size (a :: t)
    have hsz : 0 < ((a :: t).toArray).size := by
      rw [hs]
      simp
    have h := simplifyLoopF_last ch oracle (a :: t).toArray
      ((a :: t).toArray).size 0 (by omega) hsz
    rw [simplify_path, h, List.getLast?_eq_getElem?,
      List.getElem?_eq_getElem (by simp)]
    have hlt : (a :: t).length - 1 < ((a :: t).toArray).size := by omega
    have he : ((a :: t).toArray).get ⟨((a :: t).toArray).size - 1, by omega⟩ =
        ((a :: t).toArray).get ⟨(a :: t).length - 1, hlt⟩ := by
      congr 1
    rw [he]
    congr 1

theorem simplify_path_chain (ch : Character) (oracle : Oracle) (p : List Pos)
    (hch : List.Chain' (fun a b => can_move ch oracle a b = true) p) :
    List.Chain' (fun a b => can_move ch oracle a b = true)
      (simplify_path ch oracle p) := by
  rw [simplify_path]
  refine simplifyLoopF_chain ch oracle p.toArray ?_ p.toArray.size 0 (by omega)
  intro t h1
  rw [List.chain'_iff_get] at hch
  have hs := toArray_size p
  have hlen : t < p.length - 1 := by omega
  exact hch t hlen

theorem simplify_path_len (ch : Character) (oracle : Oracle) (p : List Pos) :
    pathLength (simplify_path ch oracle p) ≤ pathLength p := by
  have h := simplifyLoopF_len ch oracle p.toArray p.toArray.size 0 (by omega)
  rw [Array.toList_toArray, List.drop_zero] at h
  exact h

/-- C2: `pathfind` fails with the cross-map error (the spec's
`UnsupportedError`) exactly when the target location resolves to a map
different from the character's current map — for every oracle, fuel
(including zero fuel, i.e. before any search iteration runs), coordinates
and options — and when the resolved map equals the current map (in
particular when the location carries no map), that error is never
produced. -/
theorem c2_cross_map_guard (ch : Character) (oracle : Oracle) (fuel : Nat)
    (location : Location) (opts : Options) :
    pathfind ch oracle fuel location opts = some (.error .unsupported) ↔
      resolveMap location ch ≠ ch.map := by
  constructor
  · intro h
    by_contra hmap
    rw [pathfind, if_neg (by simp [hmap])] at h
    split at h
    · simp at h
    · simp at h
    · split at h
      · simp at h
      · simp at h
  · intro h
    rw [pathfind, if_pos h]

/-- C7: the heuristic equals the straight-line Euclidean distance when the
two positions share a map, and that distance plus the fixed
`OFFMAP_ESTIMATE` penalty when their maps differ; for every same-map pair it
is admissible — it never exceeds the travelled length of any waypoint
sequence from the first position to the second. -/
theorem c7_heuristic_admissible (a b : Pos) :
    (a.map = b.map → heuristic a b = dist2 a b) ∧
    (a.map ≠ b.map → heuristic a b = dist2 a b + OFFMAP_ESTIMATE) ∧
    (a.map = b.map → ∀ p : List Pos, p.head? = some a → p.getLast? = some b →
      heuristic a b ≤ pathLength p) := by
  refine ⟨?_, ?_, ?_⟩
  · intro h
    rw [heuristic, if_neg (by simp [h]), add_zero]
  · intro h
    rw [heuristic, if_pos h]
  · intro h p h1 h2
    rw [heuristic, if_neg (by simp [h]), add_zero]
    exact dist2_head_last p a b h1 h2

/-! ### Evaluating single steps of the search -/

theorem heuristic_self (a : Pos) : heuristic a a = 0 := by
  rw [heuristic, if_neg (by simp), dist2_self, add_zero]

theorem searchStep_exhausted (ch : Character) (oracle : Oracle) (target : Pos)
    (opts : Options) (s : SState) (he : s.edge = []) :
    searchStep ch oracle target opts s = .exhausted := by
  rw [searchStep, he]

theorem searchStep_found_close (ch : Character) (oracle : Oracle) (target : Pos)
    (opts : Options) (s : SState) (c : ℝ) (current : Pos) (rest : List (ℝ × Pos))
    (he : s.edge = (c, current) :: rest) (hexact : opts.exact = false)
    (hclose : heuristic current target < RANGE) :
    searchStep ch oracle target opts s = .found current { s with edge := rest } := by
  rw [searchStep, he]
  simp only [hexact, Bool.false_eq_true, if_false, if_pos hclose]

theorem searchStep_expand_close (ch : Character) (oracle : Oracle) (target : Pos)
    (opts : Options) (s : SState) (c : ℝ) (current : Pos) (rest : List (ℝ × Pos))
    (he : s.edge = (c, current) :: rest) (hexact : opts.exact = false)
    (hfar : ¬ heuristic current target < RANGE) :
    searchStep ch oracle target opts s = .next (expand ch oracle target opts
      current ((lookupD s.dist_so_far (position_to_key current)).getD 0) rest s) := by
  rw [searchStep, he]
  simp only [hexact, Bool.false_eq_true, if_false, if_neg hfar]

theorem searchStep_found_exact (ch : Character) (oracle : Oracle) (target : Pos)
    (opts : Options) (s : SState) (c : ℝ) (current : Pos) (rest : List (ℝ × Pos))
    (he : s.edge = (c, current) :: rest) (hexact : opts.exact = true)
    (hcm : can_move ch oracle current target = true) :
    searchStep ch oracle target opts s = .found target
      { edge := rest,
        came_from := (position_to_key target, some current) :: s.came_from,
        dist_so_far := (position_to_key target,
          (lookupD s.dist_so_far (position_to_key current)).getD 0 +
            dist2 current target) :: s.dist_so_far } := by
  rw [searchStep, he]
  simp only [hexact, if_true, hcm]

theorem searchStep_expand_exact (ch : Character) (oracle : Oracle) (target : Pos)
    (opts : Options) (s : SState) (c : ℝ) (current : Pos) (rest : List (ℝ × Pos))
    (he : s.edge = (c, current) :: rest) (hexact : opts.exact = true)
    (hcm : can_move ch oracle current target = false) :
    searchStep ch oracle target opts s = .next (expand ch oracle target opts
      current ((lookupD s.dist_so_far (position_to_key current)).getD 0) rest s) := by
  rw [searchStep, he]
  simp only [hexact, if_true, hcm, Bool.false_eq_true, if_false]

theorem backtrack_root (cf : List (Key × Option Pos)) (fuel : Nat) (found : Pos)
    (h : lookupD cf (position_to_key found) = some none) :
    backtrack cf (fuel + 1) found = some [found] := by
  rw [backtrack, h]

theorem backtrack_link (cf : List (Key × Option Pos)) (fuel : Nat) (found p : Pos)
    (h : lookupD cf (position_to_key found) = some (some p)) :
    backtrack cf (fuel + 1) found = (backtrack cf fuel p).map (· ++ [found]) := by
  rw [backtrack, h]

theorem simplify_path_single (ch : Character) (oracle : Oracle) (a : Pos) :
    simplify_path ch oracle [a] = [a] := by
  have hsz : ([a].toArray).size = 1 := by rw [toArray_size]; rfl
  rw [simplify_path, simplifyLoopF_pos ch oracle _ _ 0 (by omega) (by omega),
    scanAhead_stop ch oracle _ _ 2 (by omega),
    simplifyLoopF_stop ch oracle _ 1 (by omega)]
  rfl

theorem pathfind_found (ch : Character) (oracle : Oracle) (fuel : Nat)
    (location : Location) (opts : Options) (found : Pos) (s : SState)
    (path : List Pos) (hmap : ¬ resolveMap location ch ≠ ch.map)
    (hloop : searchLoop ch oracle (targetOf ch location) opts fuel
      (initState (originOf ch) (targetOf ch location)) = some (some found, s))
    (hback : backtrack s.came_from fuel found = some path) :
    pathfind ch oracle fuel location opts =
      some (.ok (if opts.simplify.getD true then simplify_path ch oracle path
        else path)) := by
  rw [pathfind, if_neg hmap, hloop]
  dsimp only
  rw [hback]

theorem pathfind_self (ch : Character) (oracle : Oracle) (fuel : Nat)
    (location : Location) (opts : Options)
    (hx : location.x = ch.real_x) (hy : location.y = ch.real_y)
    (hm : resolveMap location ch = ch.map) (hexact : opts.exact = false) :
    pathfind ch oracle (fuel + 1) location opts = some (.ok [originOf ch]) := by
  have hT : targetOf ch location = originOf ch := by
    rw [targetOf, originOf, hx, hy, hm]
  have hstep := searchStep_found_close ch oracle (targetOf ch location) opts
    (initState (originOf ch) (targetOf ch location))
    (heuristic (originOf ch) (targetOf ch location)) (originOf ch) []
    rfl hexact (by rw [hT, heuristic_self, RANGE]; norm_num)
  have hloop : searchLoop ch oracle (targetOf ch location) opts (fuel + 1)
      (initState (originOf ch) (targetOf ch location)) =
      some (some (originOf ch),
        { initState (originOf ch) (targetOf ch location) with edge := [] }) := by
    rw [searchLoop, hstep]
  have hback : backtrack ({ initState (originOf ch) (targetOf ch location)
      with edge := [] } : SState).came_from (fuel + 1) (originOf ch) =
      some [originOf ch] :=
    backtrack_root _ fuel _ (by simp [initState, lookupD_cons])
  rw [pathfind_found ch oracle (fuel + 1) location opts (originOf ch) _
    [originOf ch] (by simp [hm]) hloop hback]
  rw [simplify_path_single, ite_self]

/-- C8: when the target location carries the character's own coordinates
(distance 0) on the character's map and exact mode is off (the default),
`pathfind` succeeds on the first popped node — a single loop iteration of
fuel suffices — and returns the single-waypoint path `[origin]`.  The
theorem holds for every collision oracle, which formalizes that the oracle
is never consulted during the call: not by the goal test, not by neighbour
generation, and not by simplification. -/
theorem c8_trivial_search (ch : Character) (oracle : Oracle) (fuel : Nat)
    (location : Location) (opts : Options)
    (hx : location.x = ch.real_x) (hy : location.y = ch.real_y)
    (hm : resolveMap location ch = ch.map) (hexact : opts.exact = false) :
    pathfind ch oracle (fuel + 1) location opts = some (.ok [originOf ch]) :=
  pathfind_self ch oracle fuel location opts hx hy hm hexact

/-- Witness for C8: a concrete character at (5, 7) on "main" targeting its
own position with default options, under the fully permissive oracle. -/
theorem c8_trivial_search_witness :
    pathfind ⟨5, 7, "main"⟩ oracleOpen 1 ⟨5, 7, none⟩ {} =
      some (.ok [⟨5, 7, "main"⟩]) :=
  c8_trivial_search ⟨5, 7, "main"⟩ oracleOpen 0 ⟨5, 7, none⟩ {} rfl rfl rfl rfl

/-! ### Characterizing successful searches -/

theorem searchStep_found_inv (ch : Character) (oracle : Oracle) (target : Pos)
    (opts : Options) (s : SState) (p : Pos) (s2 : SState)
    (h : searchStep ch oracle target opts s = .found p s2) :
    (opts.exact = true → p = target) ∧
    (opts.exact = false → heuristic p target < RANGE) := by
  rcases hedge : s.edge with _ | ⟨⟨c, current⟩, rest⟩
  · rw [searchStep_exhausted ch oracle target opts s hedge] at h
    exact StepRes.noConfusion h
  · by_cases hex : opts.exact = true
    · by_cases hcm : can_move ch oracle current target = true
      · rw [searchStep_found_exact ch oracle target opts s c current rest
          hedge hex hcm] at h
        injection h with h1 h2
        refine ⟨fun _ => h1.symm, fun hf => ?_⟩
        rw [hf] at hex
        exact Bool.noConfusion hex
      · rw [searchStep_expand_exact ch oracle target opts s c current rest
          hedge hex (by simpa using hcm)] at h
        exact StepRes.noConfusion h
    · have hex' : opts.exact = false := by simpa using hex
      by_cases hcl : heuristic current target < RANGE
      · rw [searchStep_found_close ch oracle target opts s c current rest
          hedge hex' hcl] at h
        injection h with h1 h2
        refine ⟨fun ht => ?_, fun _ => h1 ▸ hcl⟩
        rw [ht] at hex'
        exact Bool.noConfusion hex'
      · rw [searchStep_expand_close ch oracle target opts s c current rest
          hedge hex' hcl] at h
        exact StepRes.noConfusion h

theorem searchLoop_found_goal (ch : Character) (oracle : Oracle) (target : Pos)
    (opts : Options) :
    ∀ (fuel : Nat) (s : SState) (found : Pos) (s' : SState),
      searchLoop ch oracle target opts fuel s = some (some found, s') →
      (opts.exact = true → found = target) ∧
      (opts.exact = false → heuristic found target < RANGE)
  | 0, s, found, s' => by
    intro h
    rw [searchLoop] at h
    exact Option.noConfusion h
  | fuel + 1, s, found, s' => by
    intro h
    rw [searchLoop] at h
    cases hst : searchStep ch oracle target opts s with
    | found p s2 =>
      rw [hst] at h
      simp only [Option.some.injEq, Prod.mk.injEq] at h
      obtain ⟨h1, h2⟩ := h
      subst h1
      exact searchStep_found_inv ch oracle target opts s _ s2 hst
    | exhausted =>
      rw [hst] at h
      simp at h
    | next s2 =>
      rw [hst] at h
      exact searchLoop_found_goal ch oracle target opts fuel s2 found s' h

/-- C3: for every successful call, the returned path is non-empty; with
`exact` set its last waypoint is exactly the target position, and with
`exact` unset (the default) its last waypoint is within the fixed
close-enough radius `RANGE` of the target, measured by the heuristic
(straight-line distance). -/
theorem c3_exact_vs_close (ch : Character) (oracle : Oracle) (fuel : Nat)
    (location : Location) (opts : Options) (path : List Pos)
    (h : pathfind ch oracle fuel location opts = some (.ok path)) :
    path ≠ [] ∧
    (opts.exact = true → path.getLast? = some (targetOf ch location)) ∧
    (opts.exact = false → ∃ lastp, path.getLast? = some lastp ∧
      heuristic lastp (targetOf ch location) < RANGE) := by
  by_cases hmap : resolveMap location ch ≠ ch.map
  · rw [pathfind, if_pos hmap] at h
    simp at h
  · rw [pathfind, if_neg hmap] at h
    split at h
    · exact Option.noConfusion h
    · simp at h
    · rename_i found s hloop
      split at h
      · exact Option.noConfusion h
      · rename_i path' hback
        simp only [Option.some.injEq, Except.ok.injEq] at h
        obtain ⟨hlast', hne'⟩ := backtrack_last s.came_from fuel found path' hback
        have hgoal := searchLoop_found_goal ch oracle (targetOf ch location)
          opts fuel (initState (originOf ch) (targetOf ch location)) found s hloop
        have hlast : path.getLast? = some found := by
          rw [← h]
          split
          · rw [simplify_path_last, hlast']
          · exact hlast'
        have hne : path ≠ [] := by
          rw [← h]
          split
          · cases path' with
            | nil => simp at hne'
            | cons a t => exact simplify_path_ne_nil ch oracle a t
          · exact hne'
        refine ⟨hne, fun hex => ?_, fun hex => ?_⟩
        · rw [hlast, hgoal.1 hex]
        · exact ⟨found, hlast, hgoal.2 hex⟩

/-- Witness for C3: the trivial same-position search under the permissive
oracle returns `[origin]`, whose last waypoint is within `RANGE` of the
target. -/
theorem c3_exact_vs_close_witness :
    pathfind ⟨5, 7, "main"⟩ oracleOpen 1 ⟨5, 7, none⟩ {} =
      some (.ok [⟨5, 7, "main"⟩]) ∧
    ([(⟨5, 7, "main"⟩ : Pos)] ≠ [] ∧
    (({} : Options).exact = true →
      [(⟨5, 7, "main"⟩ : Pos)].getLast? =
        some (targetOf ⟨5, 7, "main"⟩ ⟨5, 7, none⟩)) ∧
    (({} : Options).exact = false → ∃ lastp,
      [(⟨5, 7, "main"⟩ : Pos)].getLast? = some lastp ∧
      heuristic lastp (targetOf ⟨5, 7, "main"⟩ ⟨5, 7, none⟩) < RANGE)) := by
  have hrun : pathfind ⟨5, 7, "main"⟩ oracleOpen 1 ⟨5, 7, none⟩ {} =
      some (.ok [⟨5, 7, "main"⟩]) :=
    pathfind_self ⟨5, 7, "main"⟩ oracleOpen 0 ⟨5, 7, none⟩ {} rfl rfl rfl rfl
  exact ⟨hrun, c3_exact_vs_close ⟨5, 7, "main"⟩ oracleOpen 1 ⟨5, 7, none⟩ {}
    [⟨5, 7, "main"⟩] hrun⟩

/-- C4: for every path whose adjacent pairs are all oracle-verified (as the
adjacent pairs of every raw path produced by the search engine are),
`simplify_path` returns a subsequence of the input with the same first and
last element, and every adjacent pair of the result is again reported
reachable by the collision oracle. -/
theorem c4_simplify_invariant (ch : Character) (oracle : Oracle) (p : List Pos)
    (hch : List.Chain' (fun a b => can_move ch oracle a b = true) p) :
    (simplify_path ch oracle p).Sublist p ∧
    (simplify_path ch oracle p).head? = p.head? ∧
    (simplify_path ch oracle p).getLast? = p.getLast? ∧
    List.Chain' (fun a b => can_move ch oracle a b = true)
      (simplify_path ch oracle p) := by
  refine ⟨simplify_path_sublist ch oracle p, ?_, simplify_path_last ch oracle p,
    simplify_path_chain ch oracle p hch⟩
  cases p with
  | nil => rfl
  | cons a t => rw [simplify_path_head, List.head?_cons]

/-- Witness for C4: a concrete two-waypoint path whose single adjacent pair
the permissive oracle accepts. -/
theorem c4_simplify_invariant_witness :
    List.Chain' (fun a b => can_move ⟨0, 0, "main"⟩ oracleOpen a b = true)
      [⟨0, 0, "main"⟩, ⟨10, 0, "main"⟩] ∧
    ((simplify_path ⟨0, 0, "main"⟩ oracleOpen
        [⟨0, 0, "main"⟩, ⟨10, 0, "main"⟩]).Sublist
      [⟨0, 0, "main"⟩, ⟨10, 0, "main"⟩] ∧
    (simplify_path ⟨0, 0, "main"⟩ oracleOpen
        [⟨0, 0, "main"⟩, ⟨10, 0, "main"⟩]).head? =
      ([⟨0, 0, "main"⟩, ⟨10, 0, "main"⟩] : List Pos).head? ∧
    (simplify_path ⟨0, 0, "main"⟩ oracleOpen
        [⟨0, 0, "main"⟩, ⟨10, 0, "main"⟩]).getLast? =
      ([⟨0, 0, "main"⟩, ⟨10, 0, "main"⟩] : List Pos).getLast? ∧
    List.Chain' (fun a b => can_move ⟨0, 0, "main"⟩ oracleOpen a b = true)
      (simplify_path ⟨0, 0, "main"⟩ oracleOpen
        [⟨0, 0, "main"⟩, ⟨10, 0, "main"⟩])) := by
  have hcm : can_move ⟨0, 0, "main"⟩ oracleOpen ⟨0, 0, "main"⟩
      ⟨10, 0, "main"⟩ = true := by
    rw [can_move, if_neg (by simp)]
    rfl
  have hch : List.Chain' (fun a b => can_move ⟨0, 0, "main"⟩ oracleOpen a b = true)
      [⟨0, 0, "main"⟩, ⟨10, 0, "main"⟩] := by
    rw [List.chain'_cons]
    exact ⟨hcm, List.chain'_singleton _⟩
  exact ⟨hch, c4_simplify_invariant ⟨0, 0, "main"⟩ oracleOpen
    [⟨0, 0, "main"⟩, ⟨10, 0, "main"⟩] hch⟩

/-! ### The zero budget behaves as no budget -/

theorem relaxOne_zero (target : Pos) (current : Pos) (dist : ℝ) (e : Bool)
    (so : Option Bool) :
    relaxOne target { max_distance := some 0, exact := e, simplify := so }
        current dist =
      relaxOne target { max_distance := none, exact := e, simplify := so }
        current dist := by
  funext s next
  rw [relaxOne, relaxOne]
  have h1 : ¬ pruned { max_distance := some 0, exact := e, simplify := so }
      (dist + dist2 current next) := by
    rintro ⟨d, hd, hdz, _⟩
    simp only [Option.some.injEq] at hd
    exact hdz hd.symm
  have h2 : ¬ pruned { max_distance := none, exact := e, simplify := so }
      (dist + dist2 current next) := by
    rintro ⟨d, hd, _, _⟩
    exact Option.noConfusion hd
  rw [if_neg h1, if_neg h2]

theorem expand_zero (ch : Character) (oracle : Oracle) (target : Pos) (e : Bool)
    (so : Option Bool) (current : Pos) (dist : ℝ) (rest : List (ℝ × Pos))
    (s : SState) :
    expand ch oracle target { max_distance := some 0, exact := e, simplify := so }
        current dist rest s =
      expand ch oracle target { max_distance := none, exact := e, simplify := so }
        current dist rest s := by
  rw [expand, expand, relaxOne_zero]

theorem searchStep_zero (ch : Character) (oracle : Oracle) (target : Pos)
    (e : Bool) (so : Option Bool) (s : SState) :
    searchStep ch oracle target
        { max_distance := some 0, exact := e, simplify := so } s =
      searchStep ch oracle target
        { max_distance := none, exact := e, simplify := so } s := by
  rcases hedge : s.edge with _ | ⟨⟨c, current⟩, rest⟩
  · rw [searchStep_exhausted ch oracle target _ s hedge,
      searchStep_exhausted ch oracle target _ s hedge]
  · cases e with
    | true =>
      cases hcm : can_move ch oracle current target with
      | true =>
        rw [searchStep_found_exact ch oracle target _ s c current rest hedge rfl hcm,
          searchStep_found_exact ch oracle target _ s c current rest hedge rfl hcm]
      | false =>
        rw [searchStep_expand_exact ch oracle target _ s c current rest hedge rfl hcm,
          searchStep_expand_exact ch oracle target _ s c current rest hedge rfl hcm,
          expand_zero]
    | false =>
      by_cases hcl : heuristic current target < RANGE
      · rw [searchStep_found_close ch oracle target _ s c current rest hedge rfl hcl,
          searchStep_found_close ch oracle target _ s c current rest hedge rfl hcl]
      · rw [searchStep_expand_close ch oracle target _ s c current rest hedge rfl hcl,
          searchStep_expand_close ch oracle target _ s c current rest hedge rfl hcl,
          expand_zero]

theorem searchLoop_zero (ch : Character) (oracle : Oracle) (target : Pos)
    (e : Bool) (so : Option Bool) :
    ∀ (fuel : Nat) (s : SState),
      searchLoop ch oracle target
          { max_distance := some 0, exact := e, simplify := so } fuel s =
        searchLoop ch oracle target
          { max_distance := none, exact := e, simplify := so } fuel s
  | 0, s => rfl
  | fuel + 1, s => by
    rw [searchLoop, searchLoop, searchStep_zero]
    cases hst : searchStep ch oracle target
        { max_distance := none, exact := e, simplify := so } s with
    | found p s2 => rfl
    | exhausted => rfl
    | next s2 =>
      dsimp only
      exact searchLoop_zero ch oracle target e so fuel s2

/-- C10: at the public interface, `max_distance: 0` behaves as unbounded,
not as a budget of zero: the truthiness guard on the option disables the
distance pruning entirely, so `pathfind` with max_distance 0 returns
exactly the same result as `pathfind` with max_distance unset, for every
character, oracle, fuel, target and choice of the remaining options. -/
theorem c10_zero_budget_unbounded (ch : Character) (oracle : Oracle) (fuel : Nat)
    (location : Location) (e : Bool) (so : Option Bool) :
    pathfind ch oracle fuel location
        { max_distance := some 0, exact := e, simplify := so } =
      pathfind ch oracle fuel location
        { max_distance := none, exact := e, simplify := so } := by
  rw [pathfind, pathfind]
  by_cases hmap : resolveMap location ch ≠ ch.map
  · rw [if_pos hmap, if_pos hmap]
  · rw [if_neg hmap, if_neg hmap, searchLoop_zero]

/-! ### Concrete evaluation helpers -/

theorem can_move_same_map (ch : Character) (oracle : Oracle) (here there : Pos)
    (h : here.map = there.map) :
    can_move ch oracle here there = oracle ch.map here.x here.y there.x there.y := by
  rw [can_move, if_neg (by simp [h])]

theorem oracleBlock30_true (m : String) (x y gx gy : ℝ)
    (h : ¬(x = 0 ∧ y = 0 ∧ gx = 30 ∧ gy = 0)) :
    oracleBlock30 m x y gx gy = true := by
  simp only [oracleBlock30]
  rw [if_neg h]

theorem oracleBlock30_false (m : String) :
    oracleBlock30 m 0 0 30 0 = false := by
  simp [oracleBlock30]

/-- C5 amended: applying `simplify_path` a second time yields a subsequence
of the once-simplified path with the same first and last waypoint — it can
only drop further waypoints — but not necessarily the same sequence. -/
theorem c5_resimplify_shrinks (ch : Character) (oracle : Oracle) (p : List Pos) :
    (simplify_path ch oracle (simplify_path ch oracle p)).Sublist
      (simplify_path ch oracle p) ∧
    (simplify_path ch oracle (simplify_path ch oracle p)).head? =
      (simplify_path ch oracle p).head? ∧
    (simplify_path ch oracle (simplify_path ch oracle p)).getLast? =
      (simplify_path ch oracle p).getLast? := by
  refine ⟨simplify_path_sublist ch oracle _, ?_,
    simplify_path_last ch oracle _⟩
  cases hq : simplify_path ch oracle p with
  | nil => rw [simplify_path_nil]
  | cons a t => rw [simplify_path_head, List.head?_cons]

set_option maxHeartbeats 1000000 in
/-- C5 counterexample: under an oracle that blocks exactly the direct hop
from (0,0) to (30,0), the five-waypoint straight path `pathC5` simplifies to
[(0,0), (20,0), (40,0)], but simplifying that result again drops (20,0) —
the (0,0) to (40,0) hop is oracle-allowed and shorter than `MAX_SEGMENT` —
so `simplify_path` is not idempotent. -/
theorem c5_not_idempotent :
    simplify_path ⟨0, 0, "main"⟩ oracleBlock30 pathC5 = pathC5b ∧
    simplify_path ⟨0, 0, "main"⟩ oracleBlock30
        (simplify_path ⟨0, 0, "main"⟩ oracleBlock30 pathC5) ≠
      simplify_path ⟨0, 0, "main"⟩ oracleBlock30 pathC5 := by
  have hsz5 : (pathC5.toArray).size = 5 := by
    rw [toArray_size]
    rfl
  have hsz3 : (pathC5b.toArray).size = 3 := by
    rw [toArray_size]
    rfl
  have cmac : can_move ⟨0, 0, "main"⟩ oracleBlock30 ⟨0, 0, "main"⟩
      ⟨20, 0, "main"⟩ = true := by
    rw [can_move_same_map ⟨0, 0, "main"⟩ oracleBlock30 ⟨0, 0, "main"⟩
      ⟨20, 0, "main"⟩ rfl]
    exact oracleBlock30_true _ _ _ _ _ (by norm_num)
  have cmad : can_move ⟨0, 0, "main"⟩ oracleBlock30 ⟨0, 0, "main"⟩
      ⟨30, 0, "main"⟩ = false := by
    rw [can_move_same_map ⟨0, 0, "main"⟩ oracleBlock30 ⟨0, 0, "main"⟩
      ⟨30, 0, "main"⟩ rfl]
    exact oracleBlock30_false _
  have cmce : can_move ⟨0, 0, "main"⟩ oracleBlock30 ⟨20, 0, "main"⟩
      ⟨40, 0, "main"⟩ = true := by
    rw [can_move_same_map ⟨0, 0, "main"⟩ oracleBlock30 ⟨20, 0, "main"⟩
      ⟨40, 0, "main"⟩ rfl]
    exact oracleBlock30_true _ _ _ _ _ (by norm_num)
  have cmae : can_move ⟨0, 0, "main"⟩ oracleBlock30 ⟨0, 0, "main"⟩
      ⟨40, 0, "main"⟩ = true := by
    rw [can_move_same_map ⟨0, 0, "main"⟩ oracleBlock30 ⟨0, 0, "main"⟩
      ⟨40, 0, "main"⟩ rfl]
    exact oracleBlock30_true _ _ _ _ _ (by norm_num)
  have d_ac : dist2 (⟨0, 0, "main"⟩ : Pos) ⟨20, 0, "main"⟩ < MAX_SEGMENT := by
    rw [dist2_horiz ⟨0, 0, "main"⟩ ⟨20, 0, "main"⟩ rfl, MAX_SEGMENT, abs_lt]
    constructor <;> norm_num
  have d_ce : dist2 (⟨20, 0, "main"⟩ : Pos) ⟨40, 0, "main"⟩ < MAX_SEGMENT := by
    rw [dist2_horiz ⟨20, 0, "main"⟩ ⟨40, 0, "main"⟩ rfl, MAX_SEGMENT, abs_lt]
    constructor <;> norm_num
  have d_ae : dist2 (⟨0, 0, "main"⟩ : Pos) ⟨40, 0, "main"⟩ < MAX_SEGMENT := by
    rw [dist2_horiz ⟨0, 0, "main"⟩ ⟨40, 0, "main"⟩ rfl, MAX_SEGMENT, abs_lt]
    constructor <;> norm_num
  have g0 : ∀ h : 0 < (pathC5.toArray).size, (pathC5.toArray)[0] =
      (⟨0, 0, "main"⟩ : Pos) := fun _ => rfl
  have g2 : ∀ h : 2 < (pathC5.toArray).size, (pathC5.toArray)[2] =
      (⟨20, 0, "main"⟩ : Pos) := fun _ => rfl
  have g3 : ∀ h : 3 < (pathC5.toArray).size, (pathC5.toArray)[3] =
      (⟨30, 0, "main"⟩ : Pos) := fun _ => rfl
  have g4 : ∀ h : 4 < (pathC5.toArray).size, (pathC5.toArray)[4] =
      (⟨40, 0, "main"⟩ : Pos) := fun _ => rfl
  have q0 : ∀ h : 0 < (pathC5b.toArray).size, (pathC5b.toArray)[0] =
      (⟨0, 0, "main"⟩ : Pos) := fun _ => rfl
  have q2 : ∀ h : 2 < (pathC5b.toArray).size, (pathC5b.toArray)[2] =
      (⟨40, 0, "main"⟩ : Pos) := fun _ => rfl
  have e1 : simplify_path ⟨0, 0, "main"⟩ oracleBlock30 pathC5 = pathC5b := by
    rw [simplify_path,
      simplifyLoopF_pos _ _ _ _ 0 (by omega) (by omega), g0,
      scanAhead_step _ _ _ _ 2 (by omega) (by exact ⟨by rw [g2 (by omega)]; exact d_ac,
        by rw [g2 (by omega)]; exact cmac⟩),
      scanAhead_fail _ _ _ _ 3 (by omega) (by
        rintro ⟨_, hcm⟩
        rw [g3 (by omega)] at hcm
        rw [cmad] at hcm
        exact Bool.noConfusion hcm),
      show (3 : ℕ) - 1 = 2 from rfl,
      simplifyLoopF_pos _ _ _ _ 2 (by omega) (by omega), g2,
      scanAhead_step _ _ _ _ 4 (by omega) (by exact ⟨by rw [g4 (by omega)]; exact d_ce,
        by rw [g4 (by omega)]; exact cmce⟩),
      scanAhead_stop _ _ _ _ 5 (by omega),
      show (5 : ℕ) - 1 = 4 from rfl,
      simplifyLoopF_pos _ _ _ _ 4 (by omega) (by omega), g4,
      scanAhead_stop _ _ _ _ 6 (by omega),
      show (6 : ℕ) - 1 = 5 from rfl,
      simplifyLoopF_stop _ _ _ 5 (by omega)]
    rfl
  have e2 : simplify_path ⟨0, 0, "main"⟩ oracleBlock30 pathC5b =
      [⟨0, 0, "main"⟩, ⟨40, 0, "main"⟩] := by
    rw [simplify_path,
      simplifyLoopF_pos _ _ _ _ 0 (by omega) (by omega), q0,
      scanAhead_step _ _ _ _ 2 (by omega) (by exact ⟨by rw [q2 (by omega)]; exact d_ae,
        by rw [q2 (by omega)]; exact cmae⟩),
      scanAhead_stop _ _ _ _ 3 (by omega),
      show (3 : ℕ) - 1 = 2 from rfl,
      simplifyLoopF_pos _ _ _ _ 2 (by omega) (by omega), q2,
      scanAhead_stop _ _ _ _ 4 (by omega),
      show (4 : ℕ) - 1 = 3 from rfl,
      simplifyLoopF_stop _ _ _ 3 (by omega)]
  refine ⟨e1, ?_⟩
  rw [e1, e2]
  intro heq
  have hlen := congrArg List.length heq
  rw [pathC5b] at hlen
  simp at hlen

/-! ### The map invariant -/

theorem foldl_pres {α β : Type} (f : β → α → β) (P : β → Prop) :
    ∀ (l : List α) (b : β), (∀ b' a, a ∈ l → P b' → P (f b' a)) → P b →
      P (l.foldl f b)
  | [], _, _, hb => hb
  | a :: l, b, h, hb =>
    foldl_pres f P l (f b a)
      (fun b' a' ha' => h b' a' (List.mem_cons_of_mem a ha'))
      (h b a (List.mem_cons_self a l) hb)

theorem neighbours_mem (ch : Character) (oracle : Oracle) (position : Pos)
    (step : ℝ) (next : Pos) (h : next ∈ neighbours ch oracle position step) :
    next.map = position.map ∧ can_move ch oracle position next = true ∧
    ∃ ij ∈ offsets step,
      next = ⟨quantize position.x step + ij.1,
        quantize position.y step + ij.2, position.map⟩ := by
  rw [neighbours] at h
  simp only [List.mem_filterMap] at h
  obtain ⟨ij, hij, hnext⟩ := h
  split at hnext
  · simp only [Option.some.injEq] at hnext
    subst hnext
    rename_i hcm
    exact ⟨rfl, hcm, ij, hij, rfl⟩
  · exact Option.noConfusion hnext

theorem mapInv_relaxOne (target : Pos) (opts : Options) (current : Pos)
    (dist : ℝ) (O : Pos) (s : SState) (next : Pos)
    (hc : current.map = O.map) (hn : next.map = O.map)
    (hinv : MapInv O s) : MapInv O (relaxOne target opts current dist s next) := by
  rw [relaxOne]
  split
  · exact hinv
  · split
    · exact hinv
    · constructor
      · intro e he
        rcases List.mem_append.mp he with he | he
        · exact hinv.1 e he
        · simp only [List.mem_singleton] at he
          subst he
          exact hn
      · intro e he p hp
        rcases List.mem_cons.mp he with he | he
        · subst he
          simp only [Option.some.injEq] at hp
          subst hp
          exact hc
        · exact hinv.2 e he p hp

theorem mapInv_expand (ch : Character) (oracle : Oracle) (target : Pos)
    (opts : Options) (current : Pos) (dist : ℝ) (rest : List (ℝ × Pos))
    (s : SState) (O : Pos) (hc : current.map = O.map)
    (hrest : ∀ e ∈ rest, (e.2 : Pos).map = O.map) (hinv : MapInv O s) :
    MapInv O (expand ch oracle target opts current dist rest s) := by
  rw [expand]
  have h1 : MapInv O ({ s with edge := rest } : SState) := ⟨hrest, hinv.2⟩
  have h2 : MapInv O ((neighbours ch oracle current
      (if dist < SMALL_STEP_RANGE then STEP / 2 else STEP)).foldl
      (relaxOne target opts current dist) { s with edge := rest }) := by
    refine foldl_pres _ (MapInv O) _ _ ?_ h1
    intro b' a ha hb'
    have hmem := neighbours_mem ch oracle current _ a ha
    exact mapInv_relaxOne target opts current dist O b' a hc
      (hmem.1.trans hc) hb'
  refine ⟨?_, h2.2⟩
  intro e he
  have : e ∈ (((neighbours ch oracle current
      (if dist < SMALL_STEP_RANGE then STEP / 2 else STEP)).foldl
      (relaxOne target opts current dist) { s with edge := rest }).edge) :=
    (List.mergeSort_perm _ _).mem_iff.mp he
  exact h2.1 e this

theorem mapInv_searchStep (ch : Character) (oracle : Oracle) (target : Pos)
    (opts : Options) (s : SState) (O : Pos) (ht : target.map = O.map)
    (hinv : MapInv O s) :
    (∀ r, searchStep ch oracle target opts s = .next r → MapInv O r) ∧
    (∀ p r, searchStep ch oracle target opts s = .found p r →
      MapInv O r ∧ p.map = O.map) := by
  rcases hedge : s.edge with _ | ⟨⟨c, current⟩, rest⟩
  · rw [searchStep_exhausted ch oracle target opts s hedge]
    exact ⟨fun r hr => StepRes.noConfusion hr,
      fun p r hr => StepRes.noConfusion hr⟩
  · have hcur : current.map = O.map := hinv.1 (c, current) (by rw [hedge]; simp)
    have hrest : ∀ e ∈ rest, (e.2 : Pos).map = O.map := by
      intro e he
      exact hinv.1 e (by rw [hedge]; simp [he])
    by_cases hex : opts.exact = true
    · by_cases hcm : can_move ch oracle current target = true
      · rw [searchStep_found_exact ch oracle target opts s c current rest
          hedge hex hcm]
        refine ⟨fun r hr => StepRes.noConfusion hr, fun p r hr => ?_⟩
        injection hr with h1 h2
        subst h1
        subst h2
        refine ⟨⟨hrest, ?_⟩, ht⟩
        intro e he q hq
        rcases List.mem_cons.mp he with he | he
        · subst he
          simp only [Option.some.injEq] at hq
          subst hq
          exact hcur
        · exact hinv.2 e he q hq
      · rw [searchStep_expand_exact ch oracle target opts s c current rest
          hedge hex (by simpa using hcm)]
        refine ⟨fun r hr => ?_, fun p r hr => StepRes.noConfusion hr⟩
        injection hr with h1
        subst h1
        exact mapInv_expand ch oracle target opts current _ rest s O hcur
          hrest hinv
    · have hex' : opts.exact = false := by simpa using hex
      by_cases hcl : heuristic current target < RANGE
      · rw [searchStep_found_close ch oracle target opts s c current rest
          hedge hex' hcl]
        refine ⟨fun r hr => StepRes.noConfusion hr, fun p r hr => ?_⟩
        injection hr with h1 h2
        subst h1
        subst h2
        exact ⟨⟨hrest, hinv.2⟩, hcur⟩
      · rw [searchStep_expand_close ch oracle target opts s c current rest
          hedge hex' hcl]
        refine ⟨fun r hr => ?_, fun p r hr => StepRes.noConfusion hr⟩
        injection hr with h1
        subst h1
        exact mapInv_expand ch oracle target opts current _ rest s O hcur
          hrest hinv

theorem mapInv_searchLoop (ch : Character) (oracle : Oracle) (target : Pos)
    (opts : Options) (O : Pos) (ht : target.map = O.map) :
    ∀ (fuel : Nat) (s : SState) (found : Pos) (s' : SState), MapInv O s →
      searchLoop ch oracle target opts fuel s = some (some found, s') →
      MapInv O s' ∧ found.map = O.map
  | 0, s, found, s' => by
    intro hinv h
    rw [searchLoop] at h
    exact Option.noConfusion h
  | fuel + 1, s, found, s' => by
    intro hinv h
    rw [searchLoop] at h
    cases hst : searchStep ch oracle target opts s with
    | found p s2 =>
      rw [hst] at h
      simp only [Option.some.injEq, Prod.mk.injEq] at h
      obtain ⟨h1, h2⟩ := h
      subst h1
      subst h2
      exact (mapInv_searchStep ch oracle target opts s O ht hinv).2 _ _ hst
    | exhausted =>
      rw [hst] at h
      simp at h
    | next s2 =>
      rw [hst] at h
      exact mapInv_searchLoop ch oracle target opts O ht fuel s2 found s'
        ((mapInv_searchStep ch oracle target opts s O ht hinv).1 s2 hst) h

/-- C9: the internal `can_move` wrapper refuses every pair of positions on
different maps without consulting the external oracle (the result is false
for every oracle), and every waypoint of every successfully returned path
carries the character's current map. -/
theorem c9_same_map (ch : Character) (oracle : Oracle) (fuel : Nat)
    (location : Location) (opts : Options) (path : List Pos) :
    (∀ here there : Pos, here.map ≠ there.map →
      can_move ch oracle here there = false) ∧
    (pathfind ch oracle fuel location opts = some (.ok path) →
      ∀ q ∈ path, q.map = ch.map) := by
  constructor
  · intro here there hne
    rw [can_move, if_pos hne]
  · intro h q hq
    by_cases hmap : resolveMap location ch ≠ ch.map
    · rw [pathfind, if_pos hmap] at h
      simp at h
    · rw [pathfind, if_neg hmap] at h
      split at h
      · exact Option.noConfusion h
      · simp at h
      · rename_i found s hloop
        split at h
        · exact Option.noConfusion h
        · rename_i path' hback
          simp only [Option.some.injEq, Except.ok.injEq] at h
          have hO : (originOf ch).map = ch.map := rfl
          have htm : (targetOf ch location).map = (originOf ch).map := by
            rw [targetOf, originOf]
            simpa using hmap
          have hinv0 : MapInv (originOf ch)
              (initState (originOf ch) (targetOf ch location)) := by
            constructor
            · intro e he
              rw [initState] at he
              simp only [List.mem_singleton] at he
              subst he
              rfl
            · intro e he p hp
              rw [initState] at he
              simp only [List.mem_singleton] at he
              subst he
              exact Option.noConfusion hp
          obtain ⟨hinvs, hfound⟩ := mapInv_searchLoop ch oracle
            (targetOf ch location) opts (originOf ch) htm fuel _ found s
            hinv0 hloop
          have hq' : q ∈ path' := by
            rw [← h] at hq
            revert hq
            split
            · intro hq
              exact (simplify_path_sublist ch oracle path').subset hq
            · exact id
          rcases backtrack_mem s.came_from fuel found path' q hback hq' with
            h1 | ⟨k, h1⟩
          · subst h1
            exact hfound
          · exact hinvs.2 _ (lookupD_mem h1) _ rfl

/-- Witness for C9: a cross-map pair is rejected for the permissive oracle,
and the concrete trivial run's waypoints all carry the character's map. -/
theorem c9_same_map_witness :
    (⟨0, 0, "m1"⟩ : Pos).map ≠ (⟨0, 0, "m2"⟩ : Pos).map ∧
    can_move ⟨5, 7, "main"⟩ oracleOpen ⟨0, 0, "m1"⟩ ⟨0, 0, "m2"⟩ = false ∧
    pathfind ⟨5, 7, "main"⟩ oracleOpen 1 ⟨5, 7, none⟩ {} =
      some (.ok [⟨5, 7, "main"⟩]) ∧
    ∀ q ∈ [(⟨5, 7, "main"⟩ : Pos)], q.map = "main" := by
  have hrun := pathfind_self ⟨5, 7, "main"⟩ oracleOpen 0 ⟨5, 7, none⟩ {}
    rfl rfl rfl rfl
  have hc9 := c9_same_map ⟨5, 7, "main"⟩ oracleOpen 1 ⟨5, 7, none⟩ {}
    [⟨5, 7, "main"⟩]
  exact ⟨by simp, hc9.1 _ _ (by simp), hrun, hc9.2 hrun⟩

/-! ### Histories of recorded costs -/

theorem histDecr_relaxOne (target : Pos) (opts : Options) (current : Pos)
    (dist : ℝ) (s : SState) (next : Pos) (hinv : HistDecr s.dist_so_far) :
    HistDecr (relaxOne target opts current dist s next).dist_so_far := by
  rw [relaxOne]
  split
  · exact hinv
  · split
    · exact hinv
    · rename_i hnb
      intro k
      by_cases hk : position_to_key next = k
      · subst hk
        rw [valuesFor_cons_eq, List.chain'_cons']
        refine ⟨?_, hinv _⟩
        intro y hy
        rw [valuesFor_head] at hy
        rw [Option.mem_def] at hy
        by_contra hny
        exact hnb ⟨y, hy, by linarith⟩
      · rw [valuesFor_cons_ne _ _ _ _ hk]
        exact hinv k

theorem histDecr_expand (ch : Character) (oracle : Oracle) (target : Pos)
    (opts : Options) (current : Pos) (dist : ℝ) (rest : List (ℝ × Pos))
    (s : SState) (hinv : HistDecr s.dist_so_far) :
    HistDecr (expand ch oracle target opts current dist rest s).dist_so_far := by
  rw [expand]
  dsimp only
  exact foldl_pres _ (fun b => HistDecr b.dist_so_far)
    (neighbours ch oracle current
      (if dist < SMALL_STEP_RANGE then STEP / 2 else STEP))
    { s with edge := rest }
    (fun b' a _ hb' => histDecr_relaxOne target opts current dist b' a hb') hinv

theorem histDecr_searchStep_next (ch : Character) (oracle : Oracle) (target : Pos)
    (opts : Options) (s r : SState)
    (h : searchStep ch oracle target opts s = .next r)
    (hinv : HistDecr s.dist_so_far) : HistDecr r.dist_so_far := by
  rcases hedge : s.edge with _ | ⟨⟨c, current⟩, rest⟩
  · rw [searchStep_exhausted ch oracle target opts s hedge] at h
    exact StepRes.noConfusion h
  · by_cases hex : opts.exact = true
    · by_cases hcm : can_move ch oracle current target = true
      · rw [searchStep_found_exact ch oracle target opts s c current rest
          hedge hex hcm] at h
        exact StepRes.noConfusion h
      · rw [searchStep_expand_exact ch oracle target opts s c current rest
          hedge hex (by simpa using hcm)] at h
        injection h with h1
        subst h1
        exact histDecr_expand ch oracle target opts current _ rest s hinv
    · have hex' : opts.exact = false := by simpa using hex
      by_cases hcl : heuristic current target < RANGE
      · rw [searchStep_found_close ch oracle target opts s c current rest
          hedge hex' hcl] at h
        exact StepRes.noConfusion h
      · rw [searchStep_expand_close ch oracle target opts s c current rest
          hedge hex' hcl] at h
        injection h with h1
        subst h1
        exact histDecr_expand ch oracle target opts current _ rest s hinv

theorem searchStep_found_ds_close (ch : Character) (oracle : Oracle)
    (target : Pos) (opts : Options) (s : SState) (p : Pos) (s' : SState)
    (hexact : opts.exact = false)
    (h : searchStep ch oracle target opts s = .found p s') :
    s'.dist_so_far = s.dist_so_far := by
  rcases hedge : s.edge with _ | ⟨⟨c, current⟩, rest⟩
  · rw [searchStep_exhausted ch oracle target opts s hedge] at h
    exact StepRes.noConfusion h
  · by_cases hcl : heuristic current target < RANGE
    · rw [searchStep_found_close ch oracle target opts s c current rest
        hedge hexact hcl] at h
      injection h with h1 h2
      subst h2
      rfl
    · rw [searchStep_expand_close ch oracle target opts s c current rest
        hedge hexact hcl] at h
      exact StepRes.noConfusion h

/-- C6 amended: throughout a search, the per-key histories of recorded costs
in `dist_so_far` strictly decrease over time — every relaxation write is
strictly lower than the previously recorded value for that key, so the
current value is the minimum of everything ever recorded for the key.  This
holds for all states reachable by the expansion step in both modes, and in
non-exact mode also for the final success state; the exact-mode success
write is the exception shown by the counterexample. -/
theorem c6_monotonic_relaxation (ch : Character) (oracle : Oracle)
    (origin target : Pos) (opts : Options) (s : SState)
    (hreach : Reaches ch oracle target opts (initState origin target) s) :
    HistDecr s.dist_so_far ∧
    (∀ k v, lookupD s.dist_so_far k = some v →
      ∀ w ∈ valuesFor k s.dist_so_far, v ≤ w) ∧
    (opts.exact = false → ∀ p s',
      searchStep ch oracle target opts s = .found p s' →
      HistDecr s'.dist_so_far) := by
  have h1 : HistDecr s.dist_so_far := by
    induction hreach with
    | refl =>
      intro k
      rw [initState]
      by_cases hk : position_to_key origin = k
      · subst hk
        rw [show ([(position_to_key origin, (0 : ℝ))] :
            List (Key × ℝ)) = (position_to_key origin, (0 : ℝ)) :: [] from rfl,
          valuesFor_cons_eq]
        exact List.chain'_singleton 0
      · rw [show ([(position_to_key origin, (0 : ℝ))] :
            List (Key × ℝ)) = (position_to_key origin, (0 : ℝ)) :: [] from rfl,
          valuesFor_cons_ne _ _ _ _ hk]
        exact List.chain'_nil
    | tail hstep hnext ih =>
      exact histDecr_searchStep_next ch oracle target opts _ _ hnext ih
  refine ⟨h1, ?_, ?_⟩
  · intro k v hv w hw
    have hh := valuesFor_head k s.dist_so_far
    rw [hv] at hh
    have hch := List.chain'_iff_pairwise.mp (h1 k)
    rcases hvf : valuesFor k s.dist_so_far with _ | ⟨v0, rest⟩
    · rw [hvf] at hw
      simp at hw
    · rw [hvf] at hh
      simp only [List.head?_cons, Option.some.injEq] at hh
      subst hh
      rw [hvf] at hw hch
      rcases List.mem_cons.mp hw with hw | hw
      · rw [hw]
      · have := (List.pairwise_cons.mp hch).1 w hw
        linarith
  · intro hexact p s' hfound
    rw [searchStep_found_ds_close ch oracle target opts s p s' hexact hfound]
    exact h1

/-- Witness for C6's amended theorem: the initial state of any search is
reachable (zero steps) and its history is trivially strictly decreasing. -/
theorem c6_monotonic_relaxation_witness :
    HistDecr (initState ⟨0, 0, "main"⟩ ⟨50, 0, "main"⟩).dist_so_far ∧
    (∀ k v, lookupD (initState ⟨0, 0, "main"⟩
        ⟨50, 0, "main"⟩).dist_so_far k = some v →
      ∀ w ∈ valuesFor k (initState ⟨0, 0, "main"⟩
        ⟨50, 0, "main"⟩).dist_so_far, v ≤ w) ∧
    (({} : Options).exact = false → ∀ p s',
      searchStep ⟨0, 0, "main"⟩ oracleOpen ⟨50, 0, "main"⟩ {}
        (initState ⟨0, 0, "main"⟩ ⟨50, 0, "main"⟩) = .found p s' →
      HistDecr s'.dist_so_far) :=
  c6_monotonic_relaxation ⟨0, 0, "main"⟩ oracleOpen ⟨0, 0, "main"⟩
    ⟨50, 0, "main"⟩ {} (initState ⟨0, 0, "main"⟩ ⟨50, 0, "main"⟩)
    Relation.ReflTransGen.refl

theorem valuesFor_nil (k : Key) : valuesFor k [] = [] := rfl

theorem neighbours_eval (ch : Character) (oracle : Oracle) (p : Pos) (step : ℝ) :
    neighbours ch oracle p step = (offsets step).filterMap fun ij =>
      if can_move ch oracle p
          ⟨quantize p.x step + ij.1, quantize p.y step + ij.2, p.map⟩ = true
      then some (⟨quantize p.x step + ij.1, quantize p.y step + ij.2,
        p.map⟩ : Pos)
      else none := rfl

set_option maxHeartbeats 1000000 in
/-- C6 counterexample: with exact mode on, an origin at (0, 0) and a target
at (2/5, 0) — which rounds to the same table key as the origin — the
corridor oracle makes the search expand to (8, 0) and then succeed from it;
the success write stores cost 8 + 7.6 under the origin's key on top of the
recorded 0, so the recorded cost for that key increases, refuting the claim
that every update (including the exact-mode target assignment) writes a
strictly lower value. -/
theorem c6_exact_write_raises :
    searchLoop ⟨0, 0, "main"⟩ oracleCorridor ⟨2 / 5, 0, "main"⟩
        { exact := true } 2 (initState ⟨0, 0, "main"⟩ ⟨2 / 5, 0, "main"⟩) =
      some (some ⟨2 / 5, 0, "main"⟩, sFinalC6) ∧
    valuesFor (position_to_key ⟨0, 0, "main"⟩) sFinalC6.dist_so_far =
      [0 + dist2 ⟨0, 0, "main"⟩ ⟨8, 0, "main"⟩ +
        dist2 ⟨8, 0, "main"⟩ ⟨2 / 5, 0, "main"⟩, 0] ∧
    ¬ HistDecr sFinalC6.dist_so_far := by
  have k0 : position_to_key ⟨0, 0, "main"⟩ = ((0 : ℤ), (0 : ℤ), "main") := by
    rw [position_to_key]
    dsimp only
    rw [jsToFixed0_eq 0 0 (by norm_num)]
  have k8 : position_to_key ⟨8, 0, "main"⟩ = ((8 : ℤ), (0 : ℤ), "main") := by
    rw [position_to_key]
    dsimp only
    rw [jsToFixed0_eq 8 8 (by norm_num), jsToFixed0_eq 0 0 (by norm_num)]
  have kT : position_to_key ⟨2 / 5, 0, "main"⟩ = ((0 : ℤ), (0 : ℤ), "main") := by
    rw [position_to_key]
    dsimp only
    rw [jsToFixed0_eq 0 0 (by norm_num)]
    have jsT : jsToFixed0 ((2 : ℝ) / 5) = 0 := by
      rw [jsToFixed0, if_neg (by norm_num), round_eq]
      norm_num
    rw [jsT]
  have horc : ∀ gx gy : ℝ, oracleCorridor "main" 0 0 gx gy =
      if gx = 8 ∧ gy = 0 then true else false := by
    intro gx gy
    show (if ((0 : ℝ) = 0 ∧ (0 : ℝ) = 0 ∧ gx = 8 ∧ gy = 0) ∨
        ((0 : ℝ) = 8 ∧ (0 : ℝ) = 0 ∧ gx = 2 / 5 ∧ gy = 0)
      then true else false) = if gx = 8 ∧ gy = 0 then true else false
    by_cases h : gx = 8 ∧ gy = 0
    · rw [if_pos (Or.inl ⟨rfl, rfl, h.1, h.2⟩), if_pos h]
    · rw [if_neg ?_, if_neg h]
      rintro (⟨_, _, h1, h2⟩ | ⟨h1, _, _, _⟩)
      · exact h ⟨h1, h2⟩
      · norm_num at h1
  have hcm_cand : ∀ i j : ℝ, can_move ⟨0, 0, "main"⟩ oracleCorridor
      ⟨0, 0, "main"⟩ ⟨i, j, "main"⟩ = if i = 8 ∧ j = 0 then true else false := by
    intro i j
    rw [can_move_same_map ⟨0, 0, "main"⟩ oracleCorridor ⟨0, 0, "main"⟩
      ⟨i, j, "main"⟩ rfl, horc]
  have cmOT : can_move ⟨0, 0, "main"⟩ oracleCorridor ⟨0, 0, "main"⟩
      ⟨2 / 5, 0, "main"⟩ = false := by
    rw [hcm_cand (2 / 5) 0, if_neg (by norm_num)]
  have cm8T : can_move ⟨0, 0, "main"⟩ oracleCorridor ⟨8, 0, "main"⟩
      ⟨2 / 5, 0, "main"⟩ = true := by
    rw [can_move_same_map ⟨0, 0, "main"⟩ oracleCorridor ⟨8, 0, "main"⟩
      ⟨2 / 5, 0, "main"⟩ rfl]
    show (if ((8 : ℝ) = 0 ∧ (0 : ℝ) = 0 ∧ (2 / 5 : ℝ) = 8 ∧ (0 : ℝ) = 0) ∨
        ((8 : ℝ) = 8 ∧ (0 : ℝ) = 0 ∧ (2 / 5 : ℝ) = 2 / 5 ∧ (0 : ℝ) = 0)
      then true else false) = true
    rw [if_pos (Or.inr ⟨rfl, rfl, rfl, rfl⟩)]
  have hq : quantize (0 : ℝ) 8 = 0 := by simp [quantize]
  have hnb : neighbours ⟨0, 0, "main"⟩ oracleCorridor ⟨0, 0, "main"⟩ 8 =
      [⟨8, 0, "main"⟩] := by
    rw [neighbours_eval, offsets]
    dsimp only
    rw [hq]
    simp only [List.filterMap_cons, List.filterMap_nil, hcm_cand]
    norm_num
  have hlookO : lookupD (initState ⟨0, 0, "main"⟩
      ⟨2 / 5, 0, "main"⟩).dist_so_far (position_to_key ⟨0, 0, "main"⟩) =
      some 0 := by
    rw [initState]
    dsimp only
    rw [lookupD_cons, if_pos rfl]
  have hexp : expand ⟨0, 0, "main"⟩ oracleCorridor ⟨2 / 5, 0, "main"⟩
      { exact := true } ⟨0, 0, "main"⟩ 0 []
      (initState ⟨0, 0, "main"⟩ ⟨2 / 5, 0, "main"⟩) = s1C6 := by
    rw [expand,
      if_pos (show (0 : ℝ) < SMALL_STEP_RANGE by rw [SMALL_STEP_RANGE]; norm_num),
      show STEP / 2 = (8 : ℝ) from by rw [STEP]; norm_num, hnb]
    simp only [List.foldl_cons, List.foldl_nil]
    rw [relaxOne]
    dsimp only
    rw [if_neg (show ¬ pruned { exact := true }
        (0 + dist2 ⟨0, 0, "main"⟩ ⟨8, 0, "main"⟩) from by
      rintro ⟨d, hd, _, _⟩
      exact Option.noConfusion hd)]
    rw [if_neg (show ¬ hasBetter (initState ⟨0, 0, "main"⟩
        ⟨2 / 5, 0, "main"⟩).dist_so_far (position_to_key ⟨8, 0, "main"⟩)
        (0 + dist2 ⟨0, 0, "main"⟩ ⟨8, 0, "main"⟩) from by
      rintro ⟨v, hv, _⟩
      rw [initState] at hv
      dsimp only at hv
      rw [lookupD_cons, if_neg (by rw [k0, k8]; decide)] at hv
      exact Option.noConfusion hv)]
    rw [s1C6, initState]
    dsimp only
    rw [List.nil_append, List.mergeSort_singleton]
  have hgd : (lookupD (initState ⟨0, 0, "main"⟩
      ⟨2 / 5, 0, "main"⟩).dist_so_far (position_to_key ⟨0, 0, "main"⟩)).getD 0 =
      (0 : ℝ) := by
    rw [hlookO]
    rfl
  have hstep1 : searchStep ⟨0, 0, "main"⟩ oracleCorridor ⟨2 / 5, 0, "main"⟩
      { exact := true } (initState ⟨0, 0, "main"⟩ ⟨2 / 5, 0, "main"⟩) =
      .next s1C6 := by
    rw [searchStep_expand_exact ⟨0, 0, "main"⟩ oracleCorridor
      ⟨2 / 5, 0, "main"⟩ { exact := true }
      (initState ⟨0, 0, "main"⟩ ⟨2 / 5, 0, "main"⟩)
      (heuristic ⟨0, 0, "main"⟩ ⟨2 / 5, 0, "main"⟩) ⟨0, 0, "main"⟩ []
      (by rw [initState]) rfl cmOT, hgd, hexp]
  have hedge1 : s1C6.edge = (0 + dist2 ⟨0, 0, "main"⟩ ⟨8, 0, "main"⟩ +
      heuristic ⟨8, 0, "main"⟩ ⟨2 / 5, 0, "main"⟩,
      (⟨8, 0, "main"⟩ : Pos)) :: [] := by
    rw [s1C6]
  have hlook8 : (lookupD s1C6.dist_so_far
      (position_to_key ⟨8, 0, "main"⟩)).getD 0 =
      0 + dist2 ⟨0, 0, "main"⟩ ⟨8, 0, "main"⟩ := by
    rw [s1C6]
    dsimp only
    rw [lookupD_cons, if_pos rfl]
    rfl
  have hstep2 : searchStep ⟨0, 0, "main"⟩ oracleCorridor ⟨2 / 5, 0, "main"⟩
      { exact := true } s1C6 = .found ⟨2 / 5, 0, "main"⟩ sFinalC6 := by
    rw [searchStep_found_exact ⟨0, 0, "main"⟩ oracleCorridor
      ⟨2 / 5, 0, "main"⟩ { exact := true } s1C6 _ ⟨8, 0, "main"⟩ []
      hedge1 rfl cm8T, hlook8, sFinalC6]
  have hvf : valuesFor (position_to_key ⟨0, 0, "main"⟩) sFinalC6.dist_so_far =
      [0 + dist2 ⟨0, 0, "main"⟩ ⟨8, 0, "main"⟩ +
        dist2 ⟨8, 0, "main"⟩ ⟨2 / 5, 0, "main"⟩, 0] := by
    rw [sFinalC6, s1C6]
    dsimp only
    rw [k0, kT, k8, valuesFor_cons_eq,
      valuesFor_cons_ne _ _ _ _ (by decide), valuesFor_cons_eq, valuesFor_nil]
  refine ⟨?_, hvf, ?_⟩
  · show searchLoop ⟨0, 0, "main"⟩ oracleCorridor ⟨2 / 5, 0, "main"⟩
      { exact := true } (1 + 1) (initState ⟨0, 0, "main"⟩ ⟨2 / 5, 0, "main"⟩) =
      some (some ⟨2 / 5, 0, "main"⟩, sFinalC6)
    rw [searchLoop, hstep1]
    dsimp only
    show searchLoop ⟨0, 0, "main"⟩ oracleCorridor ⟨2 / 5, 0, "main"⟩
      { exact := true } (0 + 1) s1C6 = some (some ⟨2 / 5, 0, "main"⟩, sFinalC6)
    rw [searchLoop, hstep2]
  · intro hinv
    have h := hinv (position_to_key ⟨0, 0, "main"⟩)
    rw [hvf, List.chain'_cons] at h
    have d1 := dist2_nonneg ⟨0, 0, "main"⟩ ⟨8, 0, "main"⟩
    have d2 := dist2_nonneg ⟨8, 0, "main"⟩ ⟨2 / 5, 0, "main"⟩
    have h2 := h.1
    linarith

/-- Witness for C7 at a concrete same-map pair and a two-waypoint path. -/
theorem c7_heuristic_admissible_witness :
    (Pos.mk 0 0 "main").map = (Pos.mk 3 4 "main").map ∧
    heuristic ⟨0, 0, "main"⟩ ⟨3, 4, "main"⟩ ≤
      pathLength [⟨0, 0, "main"⟩, ⟨3, 4, "main"⟩] :=
  ⟨rfl, (c7_heuristic_admissible ⟨0, 0, "main"⟩ ⟨3, 4, "main"⟩).2.2 rfl
    [⟨0, 0, "main"⟩, ⟨3, 4, "main"⟩] rfl (by simp)⟩

/-! ### The budget invariant -/

theorem quantize_close (x s : ℝ) (hs : 0 < s) : |x - quantize x s| ≤ s / 2 := by
  have hsne : s ≠ 0 := ne_of_gt hs
  have h1 := abs_sub_round (x / s)
  have h2 : x - quantize x s = s * (x / s - (round (x / s) : ℝ)) := by
    rw [quantize]
    field_simp
  rw [h2, abs_mul, abs_of_pos hs]
  have h3 : s * |x / s - (round (x / s) : ℝ)| ≤ s * (1 / 2) :=
    mul_le_mul_of_nonneg_left h1 hs.le
  linarith

theorem offsets_mem (step : ℝ) (ij : ℝ × ℝ) (h : ij ∈ offsets step) :
    (ij.1 = -step ∨ ij.1 = 0 ∨ ij.1 = step) ∧
    (ij.2 = -step ∨ ij.2 = 0 ∨ ij.2 = step) := by
  rw [offsets] at h
  simp only [List.mem_cons, List.not_mem_nil, or_false] at h
  rcases h with h | h | h | h | h | h | h | h <;> subst h <;>
    exact ⟨by simp, by simp⟩

theorem quantize_lattice (x s : ℝ) (hs : s = 8 ∨ s = 16) (i : ℝ)
    (hi : i = -s ∨ i = 0 ∨ i = s) : ∃ a : ℤ, quantize x s + i = 8 * (a : ℝ) := by
  rcases hs with hs | hs <;> subst hs
  · rcases hi with hi | hi | hi <;> subst hi
    · exact ⟨round (x / 8) - 1, by rw [quantize]; push_cast; ring⟩
    · exact ⟨round (x / 8), by rw [quantize]; ring⟩
    · exact ⟨round (x / 8) + 1, by rw [quantize]; push_cast; ring⟩
  · rcases hi with hi | hi | hi <;> subst hi
    · exact ⟨2 * round (x / 16) - 2, by rw [quantize]; push_cast; ring⟩
    · exact ⟨2 * round (x / 16), by rw [quantize]; push_cast; ring⟩
    · exact ⟨2 * round (x / 16) + 2, by rw [quantize]; push_cast; ring⟩

theorem neighbours_ne (ch : Character) (oracle : Oracle) (position next : Pos)
    (step : ℝ) (hs : step = 8 ∨ step = 16)
    (hnext : next ∈ neighbours ch oracle position step) :
    ¬ (next.x = position.x ∧ next.y = position.y) := by
  have hs0 : 0 < step := by
    rcases hs with h | h <;> rw [h] <;> norm_num
  obtain ⟨hm, hcm, ij, hij, hn⟩ :=
    neighbours_mem ch oracle position step next hnext
  have hqx := quantize_close position.x step hs0
  have hqy := quantize_close position.y step hs0
  rw [abs_le] at hqx hqy
  obtain ⟨hqx1, hqx2⟩ := hqx
  obtain ⟨hqy1, hqy2⟩ := hqy
  rintro ⟨hx, hy⟩
  rw [hn] at hx hy
  rw [offsets] at hij
  simp only [List.mem_cons, List.not_mem_nil, or_false] at hij
  rcases hij with h | h | h | h | h | h | h | h <;> subst h <;>
    dsimp only at hx hy <;> linarith

theorem relaxOne_guard (target : Pos) (opts : Options) (current : Pos)
    (dist : ℝ) (s : SState) (next : Pos)
    (h : pruned opts (dist + dist2 current next) ∨
      hasBetter s.dist_so_far (position_to_key next)
        (dist + dist2 current next)) :
    relaxOne target opts current dist s next = s := by
  rw [relaxOne]
  rcases h with h | h
  · rw [if_pos h]
  · by_cases hp : pruned opts (dist + dist2 current next)
    · rw [if_pos hp]
    · rw [if_neg hp, if_pos h]

theorem relaxOne_write (target : Pos) (opts : Options) (current : Pos)
    (dist : ℝ) (s : SState) (next : Pos)
    (hp : ¬ pruned opts (dist + dist2 current next))
    (hb : ¬ hasBetter s.dist_so_far (position_to_key next)
      (dist + dist2 current next)) :
    relaxOne target opts current dist s next =
      { edge := s.edge ++ [(dist + dist2 current next +
          heuristic next target, next)],
        came_from := (position_to_key next, some current) :: s.came_from,
        dist_so_far := (position_to_key next, dist + dist2 current next) ::
          s.dist_so_far } := by
  rw [relaxOne]
  rw [if_neg hp, if_neg hb]

theorem tinv_relaxOne (ch : Character) (oracle : Oracle) (O target : Pos)
    (opts : Options) (current : Pos) (dist : ℝ) (s : SState) (next : Pos)
    (step : ℝ) (hs : step = 8 ∨ step = 16)
    (hnext : next ∈ neighbours ch oracle current step)
    (hGc : GoodPos O current) (hinv : TInv ch oracle O s)
    (hdist : lookupD s.dist_so_far (position_to_key current) = some dist) :
    TInv ch oracle O (relaxOne target opts current dist s next) ∧
    lookupD (relaxOne target opts current dist s next).dist_so_far
      (position_to_key current) = some dist := by
  by_cases hp : pruned opts (dist + dist2 current next)
  · rw [relaxOne_guard target opts current dist s next (Or.inl hp)]
    exact ⟨hinv, hdist⟩
  · by_cases hb : hasBetter s.dist_so_far (position_to_key next)
        (dist + dist2 current next)
    · rw [relaxOne_guard target opts current dist s next (Or.inr hb)]
      exact ⟨hinv, hdist⟩
    · rw [relaxOne_write target opts current dist s next hp hb]
      have hd0 : 0 ≤ dist := hinv.dsNonneg _ (lookupD_mem hdist)
      have hnd0 : 0 ≤ dist + dist2 current next :=
        add_nonneg hd0 (dist2_nonneg current next)
      have hmem := neighbours_mem ch oracle current step next hnext
      have hlat : Lattice8 next := by
        obtain ⟨hm, hcm, ij, hij, hn⟩ := hmem
        obtain ⟨hi, hj⟩ := offsets_mem step ij hij
        obtain ⟨a, ha⟩ := quantize_lattice current.x step hs ij.1 hi
        obtain ⟨b, hb2⟩ := quantize_lattice current.y step hs ij.2 hj
        rw [hn]
        exact ⟨⟨a, ha⟩, ⟨b, hb2⟩⟩
      have hmapn : next.map = O.map := by
        rcases hGc with h | h
        · rw [hmem.1, h]
        · rw [hmem.1, h.2]
      have hGn : GoodPos O next := Or.inr ⟨hlat, hmapn⟩
      have hkO : ¬ position_to_key next = position_to_key O := by
        intro hk
        exact hb ⟨0, by rw [hk]; exact hinv.originDs, hnd0⟩
      have hkC : ¬ position_to_key next = position_to_key current := by
        intro hk
        rcases hGc with h | h
        · rw [h] at hk
          exact hkO hk
        · have hnc : next = current := lattice_key_inj next current hlat h.1 hk
          exact neighbours_ne ch oracle current next step hs hnext
            ⟨by rw [hnc], by rw [hnc]⟩
      constructor
      · refine ⟨?_, ?_, ?_, ?_, ?_⟩
        · show lookupD ((position_to_key next, some current) :: s.came_from)
            (position_to_key O) = some none
          rw [lookupD_cons, if_neg hkO]
          exact hinv.originCf
        · show lookupD ((position_to_key next, dist + dist2 current next) ::
            s.dist_so_far) (position_to_key O) = some 0
          rw [lookupD_cons, if_neg hkO]
          exact hinv.originDs
        · intro e he
          rcases List.mem_cons.mp he with he | he
          · rw [he]
            exact hnd0
          · exact hinv.dsNonneg e he
        · intro e he
          rcases List.mem_append.mp he with he | he
          · obtain ⟨hG, v, hv⟩ := hinv.edgeGood e he
            refine ⟨hG, ?_⟩
            show ∃ w, lookupD ((position_to_key next,
              dist + dist2 current next) :: s.dist_so_far)
              (position_to_key e.2) = some w
            rw [lookupD_cons]
            split
            · exact ⟨dist + dist2 current next, rfl⟩
            · exact ⟨v, hv⟩
          · simp only [List.mem_singleton] at he
            rw [he]
            refine ⟨hGn, dist + dist2 current next, ?_⟩
            show lookupD ((position_to_key next, dist + dist2 current next) ::
              s.dist_so_far) (position_to_key next) = _
            rw [lookupD_cons, if_pos rfl]
        · intro k p hkp
          dsimp only at hkp
          rw [lookupD_cons] at hkp
          by_cases hk : position_to_key next = k
          · rw [if_pos hk] at hkp
            have h2 : current = p := by
              simp only [Option.some.injEq] at hkp
              exact hkp
            subst h2
            refine ⟨hGc, dist + dist2 current next, dist, ?_, ?_, ?_⟩
            · show lookupD ((position_to_key next, dist + dist2 current next) ::
                s.dist_so_far) k = some (dist + dist2 current next)
              rw [lookupD_cons, if_pos hk]
            · show lookupD ((position_to_key next, dist + dist2 current next) ::
                s.dist_so_far) (position_to_key current) = some dist
              rw [lookupD_cons, if_neg hkC]
              exact hdist
            · intro q hGq hkq
              have hq : q = next := by
                rcases hGq with h | h
                · exfalso
                  rw [h] at hkq
                  exact hkO (hk.trans hkq.symm)
                · exact lattice_key_inj q next h.1 hlat (hkq.trans hk.symm)
              rw [hq]
          · rw [if_neg hk] at hkp
            obtain ⟨hGp, v, w, hv, hw, hineq⟩ := hinv.link k p hkp
            refine ⟨hGp, v, ?_⟩
            by_cases hkp2 : position_to_key next = position_to_key p
            · have hlt : dist + dist2 current next < w := by
                by_contra hge
                push_neg at hge
                exact hb ⟨w, by rw [hkp2]; exact hw, hge⟩
              refine ⟨dist + dist2 current next, ?_, ?_, ?_⟩
              · show lookupD ((position_to_key next,
                  dist + dist2 current next) :: s.dist_so_far) k = some v
                rw [lookupD_cons, if_neg hk]
                exact hv
              · show lookupD ((position_to_key next,
                  dist + dist2 current next) :: s.dist_so_far)
                  (position_to_key p) = some (dist + dist2 current next)
                rw [lookupD_cons, if_pos hkp2]
              · intro q hGq hkq
                have hwq := hineq q hGq hkq
                linarith
            · refine ⟨w, ?_, ?_, hineq⟩
              · show lookupD ((position_to_key next,
                  dist + dist2 current next) :: s.dist_so_far) k = some v
                rw [lookupD_cons, if_neg hk]
                exact hv
              · show lookupD ((position_to_key next,
                  dist + dist2 current next) :: s.dist_so_far)
                  (position_to_key p) = some w
                rw [lookupD_cons, if_neg hkp2]
                exact hw
      · show lookupD ((position_to_key next, dist + dist2 current next) ::
          s.dist_so_far) (position_to_key current) = some dist
        rw [lookupD_cons, if_neg hkC]
        exact hdist

theorem dsLe_relaxOne (target : Pos) (opts : Options) (current : Pos)
    (dist : ℝ) (s : SState) (next : Pos) (D : ℝ)
    (hmd : opts.max_distance = some D) (hD : D ≠ 0) (hle : dsLe D s) :
    dsLe D (relaxOne target opts current dist s next) := by
  by_cases hp : pruned opts (dist + dist2 current next)
  · rw [relaxOne_guard target opts current dist s next (Or.inl hp)]
    exact hle
  · by_cases hb : hasBetter s.dist_so_far (position_to_key next)
        (dist + dist2 current next)
    · rw [relaxOne_guard target opts current dist s next (Or.inr hb)]
      exact hle
    · rw [relaxOne_write target opts current dist s next hp hb]
      intro e he
      rcases List.mem_cons.mp he with he | he
      · rw [he]
        by_contra hgt
        push_neg at hgt
        exact hp ⟨D, hmd, hD, hgt⟩
      · exact hle e he

theorem cinv_expand (ch : Character) (oracle : Oracle) (O target : Pos)
    (opts : Options) (D dist : ℝ) (current : Pos) (rest : List (ℝ × Pos))
    (s : SState) (hmd : opts.max_distance = some D) (hD : D ≠ 0)
    (hGc : GoodPos O current)
    (hdist : lookupD s.dist_so_far (position_to_key current) = some dist)
    (hinv : TInv ch oracle O s) (hle : dsLe D s)
    (hrest : ∀ e ∈ rest, GoodPos O (e.2 : Pos) ∧
      ∃ w, lookupD s.dist_so_far (position_to_key e.2) = some w) :
    TInv ch oracle O (expand ch oracle target opts current dist rest s) ∧
    dsLe D (expand ch oracle target opts current dist rest s) := by
  rw [expand]
  have hstep8 : (if dist < SMALL_STEP_RANGE then STEP / 2 else STEP) = 8 ∨
      (if dist < SMALL_STEP_RANGE then STEP / 2 else STEP) = 16 := by
    by_cases hsm : dist < SMALL_STEP_RANGE
    · left
      rw [if_pos hsm, STEP]
      norm_num
    · right
      rw [if_neg hsm, STEP]
  have hfold := foldl_pres (relaxOne target opts current dist)
    (fun b => (TInv ch oracle O b ∧
      lookupD b.dist_so_far (position_to_key current) = some dist) ∧ dsLe D b)
    (neighbours ch oracle current
      (if dist < SMALL_STEP_RANGE then STEP / 2 else STEP))
    ({ s with edge := rest })
    (fun b a ha hb => by
      obtain ⟨⟨h1, h2⟩, h3⟩ := hb
      exact ⟨tinv_relaxOne ch oracle O target opts current dist b a _ hstep8
        ha hGc h1 h2, dsLe_relaxOne target opts current dist b a D hmd hD h3⟩)
    ⟨⟨⟨hinv.originCf, hinv.originDs, hinv.dsNonneg, hrest, hinv.link⟩, hdist⟩,
      hle⟩
  obtain ⟨⟨h1, _⟩, h3⟩ := hfold
  refine ⟨⟨h1.originCf, h1.originDs, h1.dsNonneg, ?_, h1.link⟩, h3⟩
  intro e he
  exact h1.edgeGood e ((List.mergeSort_perm _ _).mem_iff.mp he)

theorem cinv_searchStep_next (ch : Character) (oracle : Oracle) (O target : Pos)
    (opts : Options) (D : ℝ) (s r : SState)
    (hmd : opts.max_distance = some D) (hD : D ≠ 0)
    (hinv : TInv ch oracle O s) (hle : dsLe D s)
    (h : searchStep ch oracle target opts s = .next r) :
    TInv ch oracle O r ∧ dsLe D r := by
  rcases hedge : s.edge with _ | ⟨⟨c, current⟩, rest⟩
  · rw [searchStep_exhausted ch oracle target opts s hedge] at h
    exact StepRes.noConfusion h
  · obtain ⟨hGc, v, hv⟩ : GoodPos O current ∧
        ∃ v, lookupD s.dist_so_far (position_to_key current) = some v :=
      hinv.edgeGood (c, current) (by rw [hedge]; exact List.mem_cons_self _ _)
    have hdist : lookupD s.dist_so_far (position_to_key current) =
        some ((lookupD s.dist_so_far (position_to_key current)).getD 0) := by
      rw [hv]
      rfl
    have hrest : ∀ e ∈ rest, GoodPos O (e.2 : Pos) ∧
        ∃ w, lookupD s.dist_so_far (position_to_key e.2) = some w := by
      intro e he
      exact hinv.edgeGood e (by rw [hedge]; exact List.mem_cons_of_mem _ he)
    by_cases hex : opts.exact = true
    · by_cases hcm : can_move ch oracle current target = true
      · rw [searchStep_found_exact ch oracle target opts s c current rest
          hedge hex hcm] at h
        exact StepRes.noConfusion h
      · rw [searchStep_expand_exact ch oracle target opts s c current rest
          hedge hex (by simpa using hcm)] at h
        injection h with h1
        rw [← h1]
        exact cinv_expand ch oracle O target opts D
          ((lookupD s.dist_so_far (position_to_key current)).getD 0) current
          rest s hmd hD hGc hdist hinv hle hrest
    · have hex' : opts.exact = false := by simpa using hex
      by_cases hcl : heuristic current target < RANGE
      · rw [searchStep_found_close ch oracle target opts s c current rest
          hedge hex' hcl] at h
        exact StepRes.noConfusion h
      · rw [searchStep_expand_close ch oracle target opts s c current rest
          hedge hex' hcl] at h
        injection h with h1
        rw [← h1]
        exact cinv_expand ch oracle O target opts D
          ((lookupD s.dist_so_far (position_to_key current)).getD 0) current
          rest s hmd hD hGc hdist hinv hle hrest

theorem cinv_searchStep_found (ch : Character) (oracle : Oracle) (O target : Pos)
    (opts : Options) (D : ℝ) (s : SState) (p : Pos) (r : SState)
    (hexact : opts.exact = false)
    (hinv : TInv ch oracle O s) (hle : dsLe D s)
    (h : searchStep ch oracle target opts s = .found p r) :
    TInv ch oracle O r ∧ GoodPos O p ∧
      ∃ v, lookupD r.dist_so_far (position_to_key p) = some v ∧ v ≤ D := by
  rcases hedge : s.edge with _ | ⟨⟨c, current⟩, rest⟩
  · rw [searchStep_exhausted ch oracle target opts s hedge] at h
    exact StepRes.noConfusion h
  · by_cases hcl : heuristic current target < RANGE
    · rw [searchStep_found_close ch oracle target opts s c current rest
        hedge hexact hcl] at h
      injection h with h1 h2
      obtain ⟨hGc, v, hv⟩ : GoodPos O current ∧
          ∃ v, lookupD s.dist_so_far (position_to_key current) = some v :=
        hinv.edgeGood (c, current) (by rw [hedge]; exact List.mem_cons_self _ _)
      have hrest : ∀ e ∈ rest, GoodPos O (e.2 : Pos) ∧
          ∃ w, lookupD s.dist_so_far (position_to_key e.2) = some w := by
        intro e he
        exact hinv.edgeGood e (by rw [hedge]; exact List.mem_cons_of_mem _ he)
      rw [← h2, ← h1]
      exact ⟨⟨hinv.originCf, hinv.originDs, hinv.dsNonneg, hrest, hinv.link⟩,
        hGc, v, hv, hle _ (lookupD_mem hv)⟩
    · rw [searchStep_expand_close ch oracle target opts s c current rest
        hedge hexact hcl] at h
      exact StepRes.noConfusion h

theorem cinv_searchLoop (ch : Character) (oracle : Oracle) (O target : Pos)
    (opts : Options) (D : ℝ) (hexact : opts.exact = false)
    (hmd : opts.max_distance = some D) (hD : D ≠ 0) :
    ∀ (fuel : Nat) (s : SState) (found : Pos) (s' : SState),
      TInv ch oracle O s → dsLe D s →
      searchLoop ch oracle target opts fuel s = some (some found, s') →
      TInv ch oracle O s' ∧ GoodPos O found ∧
        ∃ v, lookupD s'.dist_so_far (position_to_key found) = some v ∧ v ≤ D
  | 0, s, found, s' => by
    intro _ _ h
    rw [searchLoop] at h
    exact Option.noConfusion h
  | fuel + 1, s, found, s' => by
    intro h1 h2 h
    rw [searchLoop] at h
    cases hst : searchStep ch oracle target opts s with
    | found p s2 =>
      rw [hst] at h
      simp only [Option.some.injEq, Prod.mk.injEq] at h
      obtain ⟨ha, hb⟩ := h
      subst ha
      subst hb
      obtain ⟨i1, i3, i4⟩ := cinv_searchStep_found ch oracle O target opts D
        s _ _ hexact h1 h2 hst
      exact ⟨i1, i3, i4⟩
    | exhausted =>
      rw [hst] at h
      simp at h
    | next s2 =>
      rw [hst] at h
      obtain ⟨j1, j2⟩ := cinv_searchStep_next ch oracle O target opts D s s2
        hmd hD h1 h2 hst
      exact cinv_searchLoop ch oracle O target opts D hexact hmd hD fuel s2
        found s' j1 j2 h

theorem tinv_init (ch : Character) (oracle : Oracle) (O target : Pos) :
    TInv ch oracle O (initState O target) := by
  refine ⟨?_, ?_, ?_, ?_, ?_⟩
  · show lookupD [(position_to_key O, (none : Option Pos))]
      (position_to_key O) = some none
    rw [lookupD_cons, if_pos rfl]
  · show lookupD [(position_to_key O, (0 : ℝ))] (position_to_key O) = some 0
    rw [lookupD_cons, if_pos rfl]
  · intro e he
    have hds : (initState O target).dist_so_far =
        [(position_to_key O, (0 : ℝ))] := rfl
    rw [hds] at he
    simp only [List.mem_singleton] at he
    rw [he]
  · intro e he
    have hedge : (initState O target).edge = [(heuristic O target, O)] := rfl
    rw [hedge] at he
    simp only [List.mem_singleton] at he
    rw [he]
    refine ⟨Or.inl rfl, 0, ?_⟩
    show lookupD [(position_to_key O, (0 : ℝ))] (position_to_key O) = some 0
    rw [lookupD_cons, if_pos rfl]
  · intro k p hkp
    have hcf : (initState O target).came_from =
        [(position_to_key O, (none : Option Pos))] := rfl
    rw [hcf, lookupD_cons] at hkp
    split at hkp
    · exact Option.noConfusion (Option.some.inj hkp)
    · exact Option.noConfusion hkp

theorem backtrack_bound (ch : Character) (oracle : Oracle) (O : Pos)
    (s : SState) (hinv : TInv ch oracle O s) :
    ∀ (fuel : Nat) (pos : Pos) (path : List Pos) (v : ℝ), GoodPos O pos →
      lookupD s.dist_so_far (position_to_key pos) = some v →
      backtrack s.came_from fuel pos = some path → pathLength path ≤ v
  | 0, pos, path, v => by
    intro hG hv h
    rw [backtrack] at h
    exact Option.noConfusion h
  | fuel + 1, pos, path, v => by
    intro hG hv h
    rw [backtrack] at h
    split at h
    · simp only [Option.some.injEq] at h
      subst h
      exact hinv.dsNonneg _ (lookupD_mem hv)
    · simp only [Option.some.injEq] at h
      subst h
      exact hinv.dsNonneg _ (lookupD_mem hv)
    · rename_i p hp
      obtain ⟨hGp, v', w, hv', hw, hineq⟩ :=
        hinv.link (position_to_key pos) p hp
      rw [hv] at hv'
      injection hv' with hvv
      have hq := hineq pos hG rfl
      rw [← hvv] at hq
      rcases hb : backtrack s.came_from fuel p with _ | l
      · rw [hb] at h
        simp at h
      · rw [hb] at h
        simp only [Option.map_some', Option.some.injEq] at h
        subst h
        have ih := backtrack_bound ch oracle O s hinv fuel p l w hGp hw hb
        have hlast := (backtrack_last s.came_from fuel p l hb).1
        rw [pathLength_concat l p pos hlast]
        linarith

theorem simplify_path_pair (ch : Character) (oracle : Oracle) (a b : Pos) :
    simplify_path ch oracle [a, b] = [a, b] := by
  have hsz : ([a, b].toArray).size = 2 := by rw [toArray_size]; rfl
  rw [simplify_path,
    simplifyLoopF_pos ch oracle _ _ 0 (by omega) (by omega),
    scanAhead_stop ch oracle _ _ 2 (by omega)]
  rw [show (2 : ℕ) - 1 = 1 from rfl]
  rw [simplifyLoopF_pos ch oracle _ _ 1 (by omega) (by omega),
    scanAhead_stop ch oracle _ _ 3 (by omega)]
  rw [show (3 : ℕ) - 1 = 2 from rfl]
  rw [simplifyLoopF_stop ch oracle _ 2 (by omega) _]
  rfl

/-- C1 amended: budget pruning holds in non-exact mode.  With
`max_distance` set to a positive D (JavaScript truthiness excludes 0) and
exact mode off, every path `pathfind` returns has total travelled length at
most D, and whenever the frontier exhausts within the available fuel the
call fails with the spec's `NoPathError`.  The exact-mode part of the claim
is refuted by the counterexample: the final hop of an exact search is
exempt from the budget check. -/
theorem c1_budget_pruning (ch : Character) (oracle : Oracle) (fuel : Nat)
    (location : Location) (opts : Options) (D : ℝ) (path : List Pos)
    (hexact : opts.exact = false) (hmd : opts.max_distance = some D)
    (hD : 0 < D) :
    (pathfind ch oracle fuel location opts = some (.ok path) →
      pathLength path ≤ D) ∧
    ∀ s', resolveMap location ch = ch.map →
      searchLoop ch oracle (targetOf ch location) opts fuel
        (initState (originOf ch) (targetOf ch location)) = some (none, s') →
      pathfind ch oracle fuel location opts = some (.error .noPath) := by
  constructor
  · intro h
    by_cases hmap : resolveMap location ch ≠ ch.map
    · rw [pathfind, if_pos hmap] at h
      simp at h
    · rw [pathfind, if_neg hmap] at h
      split at h
      · exact Option.noConfusion h
      · simp at h
      · rename_i found s hloop
        split at h
        · exact Option.noConfusion h
        · rename_i path' hback
          simp only [Option.some.injEq, Except.ok.injEq] at h
          have hinit := tinv_init ch oracle (originOf ch)
            (targetOf ch location)
          have hle0 : dsLe D (initState (originOf ch)
              (targetOf ch location)) := by
            intro e he
            have hds : (initState (originOf ch)
                (targetOf ch location)).dist_so_far =
                [(position_to_key (originOf ch), (0 : ℝ))] := rfl
            rw [hds] at he
            simp only [List.mem_singleton] at he
            rw [he]
            exact hD.le
          obtain ⟨hinvs, hGf, v, hv, hvD⟩ := cinv_searchLoop ch oracle
            (originOf ch) (targetOf ch location) opts D hexact hmd
            (ne_of_gt hD) fuel _ found s hinit hle0 hloop
          have hbb := backtrack_bound ch oracle (originOf ch) s hinvs fuel
            found path' v hGf hv hback
          rw [← h]
          split
          · exact le_trans (le_trans (simplify_path_len ch oracle path') hbb)
              hvD
          · exact le_trans hbb hvD
  · intro s' hmap hloop
    rw [pathfind, if_neg (by simp [hmap]), hloop]

/-- Witness for the amended C1 at a concrete input: a trivial non-exact
search with budget 50 returns the single-waypoint path, whose length the
theorem bounds by 50. -/
theorem c1_budget_pruning_witness :
    pathLength [originOf ⟨5, 7, "main"⟩] ≤ 50 :=
  (c1_budget_pruning ⟨5, 7, "main"⟩ oracleOpen 1 ⟨5, 7, none⟩
      { max_distance := some (50 : ℝ) } 50 [originOf ⟨5, 7, "main"⟩] rfl rfl
      (by norm_num)).1
    (pathfind_self ⟨5, 7, "main"⟩ oracleOpen 0 ⟨5, 7, none⟩
      { max_distance := some (50 : ℝ) } rfl rfl rfl rfl)

/-- C1 counterexample: with `max_distance` 50 and exact mode on, a search
from (0, 0) to (100, 0) under the fully permissive oracle succeeds on the
very first iteration — the final hop from the popped origin to the exact
target is not budget-checked (pathfind.js lines 70-78, unlike the neighbour
relaxation of line 93) — and returns a path of length 100, exceeding the
budget.  This refutes the claim's exact-mode part. -/
theorem c1_exact_budget_violation :
    pathfind ⟨0, 0, "main"⟩ oracleOpen 2 ⟨100, 0, none⟩
        { max_distance := some 50, exact := true } =
      some (.ok [⟨0, 0, "main"⟩, ⟨100, 0, "main"⟩]) ∧
    pathLength [(⟨0, 0, "main"⟩ : Pos), ⟨100, 0, "main"⟩] = 100 ∧
    ¬ pathLength [(⟨0, 0, "main"⟩ : Pos), ⟨100, 0, "main"⟩] ≤ 50 := by
  have k0 : position_to_key ⟨0, 0, "main"⟩ = ((0 : ℤ), (0 : ℤ), "main") := by
    rw [position_to_key]
    dsimp only
    rw [jsToFixed0_eq 0 0 (by norm_num)]
  have kT : position_to_key ⟨100, 0, "main"⟩ =
      ((100 : ℤ), (0 : ℤ), "main") := by
    rw [position_to_key]
    dsimp only
    rw [jsToFixed0_eq 100 100 (by norm_num), jsToFixed0_eq 0 0 (by norm_num)]
  have hcm : can_move ⟨0, 0, "main"⟩ oracleOpen ⟨0, 0, "main"⟩
      ⟨100, 0, "main"⟩ = true := by
    rw [can_move_same_map ⟨0, 0, "main"⟩ oracleOpen ⟨0, 0, "main"⟩
      ⟨100, 0, "main"⟩ rfl]
    rfl
  have hstep : searchStep ⟨0, 0, "main"⟩ oracleOpen ⟨100, 0, "main"⟩
      { max_distance := some 50, exact := true }
      (initState ⟨0, 0, "main"⟩ ⟨100, 0, "main"⟩) =
      .found ⟨100, 0, "main"⟩ sC1 := by
    rw [searchStep_found_exact ⟨0, 0, "main"⟩ oracleOpen ⟨100, 0, "main"⟩
      { max_distance := some 50, exact := true }
      (initState ⟨0, 0, "main"⟩ ⟨100, 0, "main"⟩)
      (heuristic ⟨0, 0, "main"⟩ ⟨100, 0, "main"⟩) ⟨0, 0, "main"⟩ []
      (by rw [initState]) rfl hcm, sC1]
  have hloop : searchLoop ⟨0, 0, "main"⟩ oracleOpen ⟨100, 0, "main"⟩
      { max_distance := some 50, exact := true } 2
      (initState ⟨0, 0, "main"⟩ ⟨100, 0, "main"⟩) =
      some (some ⟨100, 0, "main"⟩, sC1) := by
    show searchLoop ⟨0, 0, "main"⟩ oracleOpen ⟨100, 0, "main"⟩
      { max_distance := some 50, exact := true } (1 + 1)
      (initState ⟨0, 0, "main"⟩ ⟨100, 0, "main"⟩) =
      some (some ⟨100, 0, "main"⟩, sC1)
    rw [searchLoop, hstep]
  have hcf : sC1.came_from =
      (position_to_key ⟨100, 0, "main"⟩, some ⟨0, 0, "main"⟩) ::
      [(position_to_key ⟨0, 0, "main"⟩, (none : Option Pos))] := rfl
  have h1 : lookupD sC1.came_from (position_to_key ⟨100, 0, "main"⟩) =
      some (some ⟨0, 0, "main"⟩) := by
    rw [hcf, lookupD_cons, if_pos rfl]
  have h2 : lookupD sC1.came_from (position_to_key ⟨0, 0, "main"⟩) =
      some none := by
    rw [hcf, lookupD_cons, if_neg (by rw [kT, k0]; decide), lookupD_cons,
      if_pos rfl]
  have hback : backtrack sC1.came_from 2 ⟨100, 0, "main"⟩ =
      some [⟨0, 0, "main"⟩, ⟨100, 0, "main"⟩] := by
    rw [show (2 : ℕ) = 1 + 1 from rfl,
      backtrack_link sC1.came_from 1 ⟨100, 0, "main"⟩ ⟨0, 0, "main"⟩ h1,
      show (1 : ℕ) = 0 + 1 from rfl,
      backtrack_root sC1.came_from 0 ⟨0, 0, "main"⟩ h2]
    rfl
  have hpf : pathfind ⟨0, 0, "main"⟩ oracleOpen 2 ⟨100, 0, none⟩
      { max_distance := some 50, exact := true } =
      some (.ok (if ({ max_distance := some 50, exact := true } :
          Options).simplify.getD true
        then simplify_path ⟨0, 0, "main"⟩ oracleOpen
          [⟨0, 0, "main"⟩, ⟨100, 0, "main"⟩]
        else [⟨0, 0, "main"⟩, ⟨100, 0, "main"⟩])) :=
    pathfind_found ⟨0, 0, "main"⟩ oracleOpen 2 ⟨100, 0, none⟩
      { max_distance := some 50, exact := true } ⟨100, 0, "main"⟩ sC1
      [⟨0, 0, "main"⟩, ⟨100, 0, "main"⟩] (fun hne => hne rfl) hloop hback
  have hpl : pathLength [(⟨0, 0, "main"⟩ : Pos), ⟨100, 0, "main"⟩] = 100 := by
    show dist2 ⟨0, 0, "main"⟩ ⟨100, 0, "main"⟩ +
      pathLength [(⟨100, 0, "main"⟩ : Pos)] = 100
    rw [dist2_horiz ⟨0, 0, "main"⟩ ⟨100, 0, "main"⟩ rfl]
    show |(0 : ℝ) - 100| + 0 = 100
    rw [abs_of_nonpos (by norm_num : (0 : ℝ) - 100 ≤ 0)]
    norm_num
  refine ⟨?_, hpl, ?_⟩
  · rw [hpf, simplify_path_pair ⟨0, 0, "main"⟩ oracleOpen ⟨0, 0, "main"⟩
      ⟨100, 0, "main"⟩, ite_self]
  · rw [hpl]
    norm_num

end AdventureLand

end
